import Mathlib

/-!
Verification of the digo build-engine core against its specification.

The definitions below are shallow embeddings of the TypeScript sources:

* `utility/sourceMap` (src/unnamed/part_007): Base64-VLQ codec,
  `SourceMapBuilder.addMapping`, `SourceMapBuilder.computeLines`,
  `toSourceMapObject`, `emitSourceMapUrl`;
* `utility/matcher` (src/unnamed/part_005): `Matcher.test`;
* `utility/path` (inside src/lib/utility/object.ts): `resolvePath`,
  `relativePath`, modelled on Node's posix `path.resolve` / `path.relative`;
* `builder/file.ts`: the `File` content/buffer duality, the `save`
  control flow, and the `FileList.src` filter stage.

JavaScript 32-bit integer operations (`<<`, `>>>`, `>>`, `&`) are made
explicit through `toInt32` / `toUint32`; machine integers are `Nat` / `Int`
with wrap-around written as explicit modular arithmetic.
-/

namespace Digo

/-! ## JavaScript number helpers

`toInt32 n` is ECMAScript ToInt32 (wrap into `[-2^31, 2^31)`), `toUint32 n`
is ToUint32 (wrap into `[0, 2^32)`).  For an `Int` already in int32 range,
`n &&& 31 = n.emod 32` and `n >>> 5 = toUint32 n / 32`, which is how the
bit operations of the source are rendered below. -/

def toUint32 (n : Int) : Nat := (n % 4294967296).toNat

def toInt32 (n : Int) : Int :=
  if n % 4294967296 < 2147483648 then n % 4294967296 else n % 4294967296 - 4294967296

/-! ## Base64-VLQ codec (utility/sourceMap, `encodeBase64Vlq` / `decodeBase64Vlq`)

Source:
```
function encodeBase64Vlq(value) {
    let result = "";
    let vlq = value < 0 ? ((-value) << 1) + 1 : (value << 1);
    do {
        const digit = vlq & 31;
        vlq >>>= 5;
        result += base64Chars[vlq > 0 ? digit | 32 : digit];
    } while (vlq > 0);
    return result;
}
```
The shifts are 32-bit JavaScript operations, hence the `toInt32`/`toUint32`
wrappers.  Inside the loop `vlq & 31 = toUint32 vlq % 32` and
`vlq >>> 5 = toUint32 vlq / 32`, and after the first `>>>=` the value is a
non-negative 27-bit number, so the whole loop runs on
`toUint32 (initial vlq)` as a natural number. -/

def base64Chars : List Char :=
  "ABCDEFGHIJKLMNOPQRSTUVWXYZabcdefghijklmnopqrstuvwxyz0123456789+/".toList

def base64Char (i : Nat) : Char := base64Chars.getD i ' '

/-- The initial zigzag value `value < 0 ? ((-value) << 1) + 1 : (value << 1)`
with JavaScript 32-bit `<<`. -/
def jsVlqInit (value : Int) : Int :=
  if value < 0 then toInt32 (toInt32 (-value) * 2) + 1 else toInt32 (toInt32 value * 2)

/-- The `do … while (vlq > 0)` loop of `encodeBase64Vlq`, on the unsigned
value of `vlq`; emits base64 digit indices, little-endian, bit 32 of a digit
being the continuation flag.  The extra `fuel` argument only bounds the
number of iterations so the recursion is structural; the loop variable is cut
to at least a fifth on every iteration, so `fuel = u + 1` never runs out
(`encodeVlqAux_eq` below recovers the fuel-free recurrence). -/
def encodeVlqGo : Nat → Nat → List Nat
  | _, 0 => []
  | u, fuel + 1 =>
    let digit := u % 32
    let u2 := u / 32
    if u2 > 0 then (digit + 32) :: encodeVlqGo u2 fuel else [digit]

def encodeVlqAux (u : Nat) : List Nat := encodeVlqGo u (u + 1)

def encodeBase64Vlq (value : Int) : List Char :=
  (encodeVlqAux (toUint32 (jsVlqInit value))).map base64Char

/-- `charCodeAt`-based digit decoding of `decodeBase64Vlq`; `none` is the
`NaN` branch for characters outside the base64 alphabet. -/
def base64Digit (ch : Char) : Option Nat :=
  let c := ch.toNat
  if 65 ≤ c ∧ c ≤ 90 then some (c - 65)
  else if 97 ≤ c ∧ c ≤ 122 then some (c - 71)
  else if 48 ≤ c ∧ c ≤ 57 then some (c + 4)
  else if c = 43 then some 62
  else if c = 47 then some 63
  else none

/-- The `do … while (digit & 32)` loop of `decodeBase64Vlq` over the
characters from the current index on.  Returns the accumulated `vlq` and how
many characters were consumed (the index advance).  Reading past the end of
the string yields `NaN`, which contributes `(NaN & 31) << shift = 0` and ends
the loop; `digit & 32` is `32 ≤ d` for the in-range digits, and
`(digit & 31) << shift` is the 32-bit shift `toInt32 ((d % 32) * 2 ^ (shift % 32))`.
The `vlq +=` additions are exact here (they are JavaScript float additions,
exact for every value this development evaluates the codec on). -/
def decodeVlqAux : List Char → Nat → Int → Int × Nat
  | [], _, acc => (acc, 1)
  | ch :: rest, shift, acc =>
    match base64Digit ch with
    | none => (acc, 1)
    | some d =>
      let acc2 := acc + toInt32 ((d % 32 : Int) * 2 ^ (shift % 32))
      if 32 ≤ d then
        let r := decodeVlqAux rest (shift + 5) acc2
        (r.1, r.2 + 1)
      else (acc2, 1)

/-- `decodeBase64Vlq(value, context)`: decodes one VLQ value starting at
`index`, returning the decoded integer and the updated index.  The final
`vlq & 1 ? -(vlq >> 1) : vlq >> 1` applies ToInt32 to the accumulator; `>> 1`
is an arithmetic shift, i.e. floor division by 2, which for the positive
divisor 2 is Lean's Euclidean `Int` division `w / 2`. -/
def decodeBase64Vlq (value : List Char) (index : Nat) : Int × Nat :=
  let r := decodeVlqAux (value.drop index) 0 0
  let w := toInt32 r.1
  (if w % 2 = 1 then -(w / 2) else w / 2, index + r.2)


/-! ## Matcher (utility/matcher)

A `Matcher` holds a list of compiled patterns and an optional nested ignore
matcher.  A compiled pattern is abstracted by its `test` function on absolute
paths (`CompiledPattern.test`); glob compilation itself is total and out of
scope here.  Source of `test`:
```
test(path) {
    for (const pattern of this.patterns) {
        if (pattern.test(path)) {
            if (this.ignoreMatcher && this.ignoreMatcher.test(path)) {
                return false;
            }
            return true;
        }
    }
    if (!this.patterns.length) {
        if (this.ignoreMatcher && this.ignoreMatcher.test(path)) {
            return false;
        }
        return true;
    }
    return false;
}
```
The `for` loop returns on the first matching pattern; `List.any` below is the
same test because every matching pattern leads to the identical ignore check. -/

inductive Matcher where
  | mk (patterns : List (String → Bool)) (ignoreMatcher : Option Matcher)

def Matcher.patterns : Matcher → List (String → Bool)
  | .mk p _ => p

def Matcher.ignoreMatcher : Matcher → Option Matcher
  | .mk _ i => i

def Matcher.test : Matcher → String → Bool
  | .mk pats ig, path =>
    if pats.any (fun p => p path) then
      match ig with
      | some i => !(Matcher.test i path)
      | none => true
    else if pats.isEmpty then
      match ig with
      | some i => !(Matcher.test i path)
      | none => true
    else false

/-! ## File (builder/file.ts)

The slice of the `File` class the claims are about: identity paths, the
target buffer/content pair with its lazy duality, and the line-index cache.
`initalPath` (sic, the source's spelling) is `none` for generated files;
`path` is `base + name`, present exactly when `name` is set (the claims never
rebase a file, so the composite is kept directly).  `srcBuffer` stands for
the already-loaded source bytes.  Buffer↔text conversion goes through the
platform encoder (`stringToBuffer` / `bufferToString`), an external
collaborator abstracted as explicit `enc` / `dec` arguments below.  A buffer
is a byte list. -/

abbrev Buf := List Nat

structure File where
  initalPath : Option String := none
  path : Option String := none
  destBuffer : Option Buf := none
  destContent : Option String := none
  srcBuffer : Buf := []
  index : Option (List Nat) := none
deriving DecidableEq, Repr

def File.generated (f : File) : Bool := f.initalPath.isNone

/-- `srcPath = initalPath || resolvePath("<generated>")`; the fallback
resolves against the working directory and is passed in as `genPath`. -/
def File.srcPath (genPath : String) (f : File) : String := f.initalPath.getD genPath

/-- `destPath = path || srcPath`. -/
def File.destPath (genPath : String) (f : File) : String :=
  f.path.getD (f.srcPath genPath)

/-- `modified` iff a target slot was written. -/
def File.modified (f : File) : Bool := f.destContent.isSome || f.destBuffer.isSome

/-- The `buffer` getter: target buffer if present, else the target content
encoded, else the source buffer. -/
def File.buffer (enc : String → Buf) (f : File) : Buf :=
  match f.destBuffer with
  | some b => b
  | none =>
    match f.destContent with
    | some c => enc c
    | none => f.srcBuffer

/-- The `content` getter: target content if present, else the target buffer
decoded, else the source content (the decoded source buffer). -/
def File.content (dec : Buf → String) (f : File) : String :=
  match f.destContent with
  | some c => c
  | none =>
    match f.destBuffer with
    | some b => dec b
    | none => dec f.srcBuffer

/-- The `buffer` setter: stores the buffer, deletes the cached content, and
marks the file modified, which drops the line-index cache. -/
def File.setBuffer (value : Buf) (f : File) : File :=
  { f with destBuffer := some value, destContent := none, index := none }

/-- The `content` setter: stores the text, deletes the cached buffer, and
marks the file modified, which drops the line-index cache. -/
def File.setContent (value : String) (f : File) : File :=
  { f with destContent := some value, destBuffer := none, index := none }

/-! ## File.save (builder/file.ts)

The save decision logic.  Configuration that the source reads from module
globals (`buildMode`, `overwrite`, hooks) is gathered in `SaveConfig`;
`validateVeto` is `onFileValidate` returning `false`, `hasSaveFile` is the
in-memory sink installed in server mode.  The outcome records whether the
destination file was written, how many file-level errors `this.error` logged,
and whether the callback ran.  Disk I/O itself is modeled as succeeding, and
the optional `dir` argument (which only rebases `path` before the logic
below) is not modeled: the claims pass no `dir`. -/

inductive BuildMode where
  | build | clean | preview | watch | server
deriving DecidableEq, Repr

/-- `pathEquals` from utility/path on two defined paths (posix branch:
case-sensitive comparison). -/
def pathEquals (a b : String) : Bool := a == b

structure SaveConfig where
  buildMode : BuildMode := .build
  overwrite : Bool := false
  validateVeto : Bool := false
  sourceMap : Bool := false
  hasSourceMapData : Bool := false
  sourceMapEmit : Bool := false
  hasSaveFile : Bool := false
deriving DecidableEq, Repr

structure SaveOutcome where
  wrote : Bool
  errors : Nat
  callbackCalled : Bool
deriving DecidableEq, Repr

/-- The write phase of `save` (reached only after the validation and
overwrite checks): build/watch/server write the destination, clean deletes
it, preview does no I/O; with a `saveFile` sink the write goes to the sink
except in clean mode. -/
def saveWrite (cfg : SaveConfig) : SaveOutcome :=
  if cfg.hasSaveFile then
    { wrote := cfg.buildMode ≠ BuildMode.clean, errors := 0, callbackCalled := true }
  else
    match cfg.buildMode with
    | .build | .watch | .server => { wrote := true, errors := 0, callbackCalled := true }
    | _ => { wrote := false, errors := 0, callbackCalled := true }

/-- `File.save`: the control flow of `save(dir?, callback?)` up to the point
where a write is issued.

* `onFileValidate` veto: callback, no write, no error;
* `savePath = this.path` undefined: callback, no write, no error;
* non-generated file whose `initalPath` equals the save path:
  * not modified (and no source-map emission): skip with callback;
  * modified without `overwrite`: log one file-level error
    (`"Cannot overwrite source file…"`), callback, no write;
* otherwise the write phase runs. -/
def File.save (cfg : SaveConfig) (f : File) : SaveOutcome :=
  if cfg.validateVeto then { wrote := false, errors := 0, callbackCalled := true }
  else
    match f.path with
    | none => { wrote := false, errors := 0, callbackCalled := true }
    | some savePath =>
      let sourceMapEmit := cfg.sourceMap && cfg.hasSourceMapData && cfg.sourceMapEmit
      let modified := f.modified || sourceMapEmit
      if f.generated = false
          && pathEquals (f.initalPath.getD "") savePath then
        if modified = false then { wrote := false, errors := 0, callbackCalled := true }
        else if cfg.overwrite = false then
          { wrote := false, errors := 1, callbackCalled := true }
        else saveWrite cfg
      else saveWrite cfg

/-! ## FileList.src (builder/file.ts, FileList section)

`src(...patterns)` pipes through a processor whose `add` is
```
add(file, matcher) {
    return file.path != undefined && matcher.test(file.path);
}
```
and `_onAdd` suppresses the file from the stage's output when the returned
value is `false` (in a linear chain the `while` loop walks `next` past every
remaining list).  `srcStageForwards` is that composite: the file reaches the
next stage iff `add` returned `true`. -/

def srcAdd (matcher : Matcher) (f : File) : Bool :=
  match f.path with
  | some p => matcher.test p
  | none => false

def srcStageForwards (matcher : Matcher) (f : File) : Bool := srcAdd matcher f

/-! ## SourceMapBuilder (utility/sourceMap)

A mapping point and the mapping table.  The source stores `mappings` as a
sparse array of rows indexed by generated line; a *hole* and an *empty row*
behave identically in every function modeled here (`addMapping` turns either
into the fresh row, `computeLines` reads `mappings[line] && mappings[line][0]`
which is falsy for both), so the table is a dense list with `[]` for holes.
Generated/source lines and columns are JavaScript numbers; columns may be
any integer, line indices are array keys, i.e. naturals. -/

structure Mapping where
  generatedColumn : Int
  sourceIndex : Option Nat := none
  sourceLine : Option Int := none
  sourceColumn : Option Int := none
  nameIndex : Option Nat := none
deriving DecidableEq, Repr

structure SourceMapBuilder where
  file : Option String := none
  sourceRoot : Option String := none
  sources : List String := []
  sourcesContent : List String := []
  names : List String := []
  mappings : List (List Mapping) := []
deriving DecidableEq, Repr

/-- `mappings[i]` as a read: a hole or out-of-range index yields the
equivalent of the absent row. -/
def rowAt (ms : List (List Mapping)) (i : Nat) : List Mapping := ms.getD i []

/-- `this.mappings[i] = row`: a JavaScript array assignment beyond the
current length extends the array (holes become empty rows here). -/
def setRow (ms : List (List Mapping)) (i : Nat) (row : List Mapping) :
    List (List Mapping) :=
  if i < ms.length then ms.set i row
  else ms ++ List.replicate (i - ms.length) [] ++ [row]

/-- The descending scan of `indexOfSource`
(`for (sourceIndex = this.sources.length; --sourceIndex >= 0;)`): the last
index whose entry equals `lower` case-insensitively, or `-1`. -/
def scanLower : List String → String → Int
  | [], _ => -1
  | s :: rest, lower =>
    let r := scanLower rest lower
    if r ≥ 0 then r + 1
    else if s.toLower == lower then 0 else -1

/-- `indexOfSource(sourcePath)`: `-1` on an empty source list, else the first
exact index, else the last case-insensitive match, else `-1`. -/
def SourceMapBuilder.indexOfSource (b : SourceMapBuilder) (sourcePath : String) : Int :=
  if b.sources.isEmpty then -1
  else
    match b.sources.indexOf? sourcePath with
    | some i => (i : Int)
    | none => scanLower b.sources sourcePath.toLower

/-- `addSource(sourcePath)`: appends the path when `indexOfSource` is
negative; returns the updated builder and the index. -/
def SourceMapBuilder.addSource (b : SourceMapBuilder) (sourcePath : String) :
    SourceMapBuilder × Nat :=
  let i := b.indexOfSource sourcePath
  if i < 0 then ({ b with sources := b.sources ++ [sourcePath] }, b.sources.length)
  else (b, i.toNat)

/-- `addName(name)`: appends the name when `names.indexOf` is negative. -/
def SourceMapBuilder.addName (b : SourceMapBuilder) (name : String) :
    SourceMapBuilder × Nat :=
  match b.names.indexOf? name with
  | some i => (b, i)
  | none => ({ b with names := b.names ++ [name] }, b.names.length)

/-- The insertion loop of `addMapping`
(`for (let i = mappings.length; --i >= 0;)`); the argument is the loop
counter before the decrement.  At index `i`: a strictly greater column moves
on downward, an equal column replaces `mappings[i]`, a smaller one splices
the new mapping in right after `i`; an exhausted loop unshifts. -/
def insertMappingAt (row : List Mapping) (m : Mapping) : Nat → List Mapping
  | 0 => m :: row
  | i + 1 =>
    match row[i]? with
    | none => insertMappingAt row m i
    | some x =>
      if m.generatedColumn ≥ x.generatedColumn then
        if m.generatedColumn = x.generatedColumn then row.set i m
        else List.insertIdx (i + 1) m row
      else insertMappingAt row m i

/-- The per-row part of `addMapping`: fresh rows and columns at or past the
current last column are pushed at the end, anything else goes through the
insertion loop. -/
def addMappingRow (row : List Mapping) (m : Mapping) : List Mapping :=
  match row.getLast? with
  | none => [m]
  | some last =>
    if m.generatedColumn ≥ last.generatedColumn then row ++ [m]
    else insertMappingAt row m row.length

/-- Storing a finished mapping point into its generated line's row. -/
def addMappingCore (b : SourceMapBuilder) (generatedLine : Nat) (m : Mapping) :
    SourceMapBuilder :=
  { b with
    mappings := setRow b.mappings generatedLine
      (addMappingRow (rowAt b.mappings generatedLine) m) }

/-- `addMapping(generatedLine, generatedColumn, sourcePath?, sourceLine?,
sourceColumn?, name?)`.  Builds the mapping point (registering the source
path and name when given) and insertion-sorts it into the generated line's
row.  The source also returns the new mapping; only the updated builder is
kept here. -/
def SourceMapBuilder.addMapping (b : SourceMapBuilder) (generatedLine : Nat)
    (generatedColumn : Int) (sourcePath : Option String := none)
    (sourceLine : Option Int := none) (sourceColumn : Option Int := none)
    (name : Option String := none) : SourceMapBuilder :=
  match sourcePath with
  | none => addMappingCore b generatedLine { generatedColumn }
  | some sp =>
    let p := b.addSource sp
    match name with
    | none =>
      addMappingCore p.1 generatedLine
        { generatedColumn, sourceIndex := some p.2, sourceLine, sourceColumn }
    | some nm =>
      let q := p.1.addName nm
      addMappingCore q.1 generatedLine
        { generatedColumn, sourceIndex := some p.2, sourceLine, sourceColumn,
          nameIndex := some q.2 }

/-- A row sorted by generated column (non-strictly: the row may hold several
mappings with one column). -/
def RowSorted (row : List Mapping) : Prop :=
  row.Pairwise (fun a b => a.generatedColumn ≤ b.generatedColumn)

/-- The inner backward scan of `computeLines`
(`for (let line = startLine; --line >= 0;)`): the nearest earlier line with a
non-empty row, together with that row's *first* mapping
(`this.mappings[line][0]`; the source names this value `last`, but it reads
index `0`). -/
def findPrevLine (ms : List (List Mapping)) : Nat → Option (Nat × Mapping)
  | 0 => none
  | line + 1 =>
    match (rowAt ms line).head? with
    | some m => some (line, m)
    | none => findPrevLine ms line

/-- One iteration of the `computeLines` loop, at line `startLine`:
materialize the row, and when it is empty or starts past generated column 0,
insert at column 0 a copy of the first mapping of the nearest earlier
non-empty line, its source line advanced by the line distance and its source
column 0 — unless that mapping has no source index, in which case the scan
just breaks and nothing is inserted.  (When that mapping's `sourceLine` is
itself undefined the JavaScript sum is `NaN`; both are rendered `none`.) -/
def computeLine (ms : List (List Mapping)) (startLine : Nat) :
    List (List Mapping) :=
  let row := rowAt ms startLine
  let needsFill :=
    match row.head? with
    | none => true
    | some m => decide (m.generatedColumn > 0)
  if needsFill then
    match findPrevLine ms startLine with
    | none => setRow ms startLine row
    | some (line, last) =>
      match last.sourceIndex with
      | none => setRow ms startLine row
      | some si =>
        setRow ms startLine
          ({ generatedColumn := 0, sourceIndex := some si,
             sourceLine := last.sourceLine.map (fun sl => sl + ((startLine - line : Nat) : Int)),
             sourceColumn := some 0 } :: row)
  else setRow ms startLine row

/-- The `for (; startLine < endLine; startLine++)` loop, with the remaining
iteration count as the recursion measure. -/
def computeLinesGo (ms : List (List Mapping)) (startLine : Nat) :
    Nat → List (List Mapping)
  | 0 => ms
  | n + 1 => computeLinesGo (computeLine ms startLine) (startLine + 1) n

/-- `computeLines(startLine = 0, endLine = this.mappings.length)`: fills the
half-open line range. -/
def SourceMapBuilder.computeLines (b : SourceMapBuilder) (startLine : Nat := 0)
    (endLine : Option Nat := none) : SourceMapBuilder :=
  { b with
    mappings :=
      computeLinesGo b.mappings startLine
        ((endLine.getD b.mappings.length) - startLine) }

/-! ## toSourceMapObject (utility/sourceMap)

```
export function toSourceMapObject(sourceMapData) {
    if (typeof sourceMapData === "string") { … JSON.parse … }
    else if (sourceMapData.toJSON) { sourceMapData = sourceMapData.toJSON(); }
    if (sourceMapData.sections) {
        throw new TypeError("Indexed Map is not supported yet.");
    }
    if (sourceMapData.version && sourceMapData.version != 3) {
        throw new TypeError(`Source Map v… is not supported yet.`);
    }
    return sourceMapData;
}
```
The input is modeled in its object form (the string branch is JSON parsing of
the same shape, the generator branch just unwraps `toJSON`).  Only the two
fields the checks read are kept: whether a `sections` field is present (its
value, an array, is always truthy), and the `version` field (`none` when the
field is absent; `NaN` is not representable and not produced by JSON).
Throwing is an `Except.error` carrying the message. -/

structure RawSourceMap where
  hasSections : Bool := false
  version : Option Int := none
deriving DecidableEq, Repr

/-- JavaScript truthiness of a possibly missing number: `undefined` and `0`
are falsy. -/
def jsTruthyNum : Option Int → Bool
  | none => false
  | some n => n ≠ 0

def toSourceMapObject (m : RawSourceMap) : Except String RawSourceMap :=
  if m.hasSections then Except.error "Indexed Map is not supported yet."
  else if jsTruthyNum m.version && m.version ≠ some 3 then
    Except.error "Source Map version is not supported yet."
  else Except.ok m

/-! ## Path utilities (utility/path: `resolvePath` / `relativePath`)

```
export function resolvePath(base, path?) { return np.resolve(base, path || ""); }
export function relativePath(base, path?) {
    if (path === undefined) { path = base; base = ""; }
    path = np.relative(base, path);
    return np.sep === "\\" ? path.replace(/\\/g, "/") : path;
}
```
These delegate to Node's `path.resolve` / `path.relative`; the host is taken
posix (`np.sep = "/"`, so the backslash replacement is the identity), and the
process working directory is an explicit `cwd` argument.  Strings are worked
on as their character lists; paths are split into `/`-separated segments
(`splitSegsC` is `String.split` on `/` at character level), resolution
normalizes the concatenated segment list exactly as Node's
`normalizeStringPosix` does (`.` and empty segments dropped, `..` popping one
segment, above-root `..` dropped for absolute paths), and `path.relative`'s
character-level common-prefix scan over the two resolved strings is rendered
as the segment-level common prefix of their segment lists, which coincides
with it on resolved (normalized, absolute) paths. -/

def splitSegsC : List Char → List (List Char)
  | [] => [[]]
  | c :: rest =>
    if c = '/' then [] :: splitSegsC rest
    else
      match splitSegsC rest with
      | [] => [[c]]
      | s :: ss => (c :: s) :: ss

def joinSegsC : List (List Char) → List Char
  | [] => []
  | [s] => s
  | s :: rest => s ++ '/' :: joinSegsC rest

def isAbs (s : List Char) : Bool :=
  match s with
  | c :: _ => c = '/'
  | [] => false

/-- The right-to-left argument scan of Node's `posix.resolve`: empty
arguments are skipped, the first absolute argument (from the right) stops the
scan, otherwise the working directory is prepended.  Returns whether the
joined path is absolute and its raw segment list. -/
def resolveRightGo (cwd : List Char) : List (List Char) → Bool × List (List Char)
  | [] => (isAbs cwd, splitSegsC cwd)
  | p :: earlier =>
    if p = [] then resolveRightGo cwd earlier
    else if isAbs p then (true, splitSegsC p)
    else
      ((resolveRightGo cwd earlier).1,
        (resolveRightGo cwd earlier).2 ++ splitSegsC p)

def resolveRight (cwd : List Char) (args : List (List Char)) :
    Bool × List (List Char) :=
  resolveRightGo cwd args.reverse

/-- One segment of Node's `normalizeStringPosix`: `.` and empty segments are
dropped; `..` pops the last stacked segment unless it is itself a `..`, in
which case (or on an empty stack) a `..` is kept only when `allowAboveRoot`. -/
def normStep (aar : Bool) (stack : List (List Char)) (seg : List Char) :
    List (List Char) :=
  if seg = [] ∨ seg = ['.'] then stack
  else if seg = ['.', '.'] then
    if stack ≠ [] ∧ stack.getLast? ≠ some ['.', '.'] then stack.dropLast
    else if aar then stack ++ [['.', '.']] else stack
  else stack ++ [seg]

def normSegs (aar : Bool) (segs : List (List Char)) : List (List Char) :=
  segs.foldl (normStep aar) []

/-- Node's `posix.resolve(…args)` against the working directory `cwd`. -/
def posixResolve (cwd : String) (args : List String) : String :=
  let r := resolveRight cwd.data (args.map String.data)
  let n := normSegs (!r.1) r.2
  if r.1 then String.mk ('/' :: joinSegsC n)
  else if n = [] then "." else String.mk (joinSegsC n)

/-- The segment list of a resolved absolute path (its leading `/` dropped and
the rest split); `/` itself has no segments. -/
def resolvedSegs (p : String) : List (List Char) :=
  if p.data.drop 1 = [] then [] else splitSegsC (p.data.drop 1)

/-- Length of the common segment prefix. -/
def commonLen : List (List Char) → List (List Char) → Nat
  | a :: as, b :: bs => if a = b then commonLen as bs + 1 else 0
  | _, _ => 0

/-- Node's `posix.relative(fromP, toP)`: both arguments resolved, equal paths
give the empty string, otherwise one `..` per non-common segment of `from`
followed by the non-common segments of `to`. -/
def posixRelative (cwd : String) (fromP toP : String) : String :=
  let f := posixResolve cwd [fromP]
  let t := posixResolve cwd [toP]
  if f = t then ""
  else
    let fs := resolvedSegs f
    let ts := resolvedSegs t
    let c := commonLen fs ts
    String.mk (joinSegsC (List.replicate (fs.length - c) ['.', '.'] ++ ts.drop c))

/-- `resolvePath(base, path)` (two-argument overload). -/
def resolvePath (cwd base path : String) : String := posixResolve cwd [base, path]

/-- `resolvePath(path)` (one-argument overload): resolves against the working
directory only. -/
def resolvePath1 (cwd path : String) : String := posixResolve cwd [path]

/-- `relativePath(base, path)` (two-argument overload, posix host). -/
def relativePath (cwd base path : String) : String := posixRelative cwd base path

/-! ## emitSourceMapUrl and its regular expression (part_007) -/

/-- JavaScript regex whitespace class `\s` (ECMAScript WhiteSpace and
LineTerminator code points). -/
def isJsSpace (c : Char) : Bool :=
  c == ' ' || c == '\t' || c == '\n' || c.toNat == 0x0B || c.toNat == 0x0C ||
  c == '\r' || c.toNat == 0xA0 || c.toNat == 0x1680 ||
  (decide (0x2000 ≤ c.toNat) && decide (c.toNat ≤ 0x200A)) ||
  c.toNat == 0x2028 || c.toNat == 0x2029 || c.toNat == 0x202F ||
  c.toNat == 0x205F || c.toNat == 0x3000 || c.toNat == 0xFEFF

/-- The url capture class of the sourceMappingURL regex: any character that is
not whitespace and not a quote. -/
def isUrlChar (c : Char) : Bool :=
  !isJsSpace c && c != '\'' && c != '\"'

/-- The fragment of JavaScript regular expressions used by the
`sourceMappingURL` pattern of `emitSourceMapUrl`: the empty word, single
characters drawn from a class, concatenation, ordered alternation `a|b`,
greedy option `a?` and greedy star of a character class. -/
inductive Rx : Type
  | eps : Rx
  | chr : (Char → Bool) → Rx
  | cat : Rx → Rx → Rx
  | alt : Rx → Rx → Rx
  | opt : Rx → Rx
  | starC : (Char → Bool) → Rx

/-- A literal string as a regex. -/
def rxLit : List Char → Rx
  | [] => .eps
  | c :: rest => .cat (.chr (fun x => x == c)) (rxLit rest)

/-- Greedy backtracking star of a character class in continuation style:
consume as many class characters as possible, backtracking one at a time when
the continuation fails. -/
def rxStar (p : Char → Bool) (k : List Char → Option (List Char)) :
    List Char → Option (List Char)
  | [] => k []
  | c :: rest =>
    if p c then
      match rxStar p k rest with
      | some out => some out
      | none => k (c :: rest)
    else k (c :: rest)

/-- The backtracking matcher used by JavaScript regexes: `rxRun r s k` tries
to match a prefix of `s` against `r` and hands the remaining suffix to the
continuation `k`, preferring the left alternative and the longer option, and
backtracking on failure.  The result is the continuation's first success. -/
def rxRun : Rx → List Char → (List Char → Option (List Char)) → Option (List Char)
  | .eps, s, k => k s
  | .chr p, s, k =>
    match s with
    | [] => none
    | c :: rest => if p c then k rest else none
  | .cat r1 r2, s, k => rxRun r1 s (fun t => rxRun r2 t k)
  | .alt r1 r2, s, k =>
    match rxRun r1 s k with
    | some out => some out
    | none => rxRun r2 s k
  | .opt r, s, k =>
    match rxRun r s k with
    | some out => some out
    | none => k s
  | .starC p, s, k => rxStar p k s

/-- Matching anchored at the start of `s`: the suffix left after the match the
backtracking engine chooses, or `none` when no prefix of `s` matches. -/
def rxMatchAt (r : Rx) (s : List Char) : Option (List Char) :=
  rxRun r s some

/-- The leftmost-match rule of a non-global `String.replace`: scan positions
left to right and stop at the first where the pattern matches, returning the
text before the match and the text after it. -/
def rxFindFirst (r : Rx) : List Char → Option (List Char × List Char)
  | [] =>
    match rxMatchAt r [] with
    | some rest => some ([], rest)
    | none => none
  | c :: t =>
    match rxMatchAt r (c :: t) with
    | some rest => some ([], rest)
    | none =>
      match rxFindFirst r t with
      | some pr => some (c :: pr.1, pr.2)
      | none => none

/-- The block-comment alternative of the `emitSourceMapUrl` regex:
slash-star, an optional line break (optionally followed by a line-comment
opener), `#` or `@`, one whitespace, `sourceMappingURL=`, the url characters,
whitespace, star-slash. -/
def rxBlockComment : Rx :=
  .cat (rxLit "/*".data)
    (.cat (.opt (.cat (.starC isJsSpace)
        (.cat (.opt (.chr (fun x => x == '\r')))
          (.cat (.chr (fun x => x == '\n')) (.opt (rxLit "//".data))))))
      (.cat (.chr (fun x => x == '#' || x == '@'))
        (.cat (.chr isJsSpace)
          (.cat (rxLit "sourceMappingURL=".data)
            (.cat (.starC isUrlChar)
              (.cat (.starC isJsSpace) (rxLit "*/".data)))))))

/-- The line-comment alternative of the `emitSourceMapUrl` regex: two
slashes, `#` or `@`, one whitespace, `sourceMappingURL=`, the url
characters. -/
def rxLineComment : Rx :=
  .cat (rxLit "//".data)
    (.cat (.chr (fun x => x == '#' || x == '@'))
      (.cat (.chr isJsSpace)
        (.cat (rxLit "sourceMappingURL=".data) (.starC isUrlChar))))

/-- The whole `emitSourceMapUrl` pattern: either comment form followed by the
trailing whitespace the regex swallows. -/
def sourceMapUrlRx : Rx :=
  .cat (.alt rxBlockComment rxLineComment) (.starC isJsSpace)

/-- `emitSourceMapUrl(content, null)`: the replacement callback returns the
empty string because `sourceMapUrl` is falsy, and the trailing
`if (!found && sourceMapUrl)` append never fires for the same reason, so the
function is `content.replace(re, "")` with a non-global regex — remove the
first match, if any. -/
def emitSourceMapUrlNull (content : List Char) : List Char :=
  match rxFindFirst sourceMapUrlRx content with
  | some pr => pr.1 ++ pr.2
  | none => content

/-- Declarative matching: `RxMatches r s` holds when the word `s` belongs to
the language of `r`, independent of matching strategy. -/
inductive RxMatches : Rx → List Char → Prop
  | eps : RxMatches .eps []
  | chr {p : Char → Bool} {c : Char} : p c = true → RxMatches (.chr p) [c]
  | cat {r1 r2 : Rx} {s1 s2 : List Char} :
      RxMatches r1 s1 → RxMatches r2 s2 → RxMatches (.cat r1 r2) (s1 ++ s2)
  | altL {r1 r2 : Rx} {s : List Char} : RxMatches r1 s → RxMatches (.alt r1 r2) s
  | altR {r1 r2 : Rx} {s : List Char} : RxMatches r2 s → RxMatches (.alt r1 r2) s
  | optSome {r : Rx} {s : List Char} : RxMatches r s → RxMatches (.opt r) s
  | optNone {r : Rx} : RxMatches (.opt r) []
  | starNil {p : Char → Bool} : RxMatches (.starC p) []
  | starCons {p : Char → Bool} {c : Char} {s : List Char} :
      p c = true → RxMatches (.starC p) s → RxMatches (.starC p) (c :: s)

/-! # Theorems -/

theorem toInt32_eq_self (n : Int) (h1 : -2147483648 ≤ n) (h2 : n < 2147483648) :
    toInt32 n = n := by
  unfold toInt32
  split <;> omega

theorem toUint32_eq_toNat (n : Int) (h1 : 0 ≤ n) (h2 : n < 4294967296) :
    toUint32 n = n.toNat := by
  unfold toUint32
  congr 1
  omega

theorem encodeVlqGo_congr : ∀ (fuel1 fuel2 u : Nat), u < fuel1 → u < fuel2 →
    encodeVlqGo u fuel1 = encodeVlqGo u fuel2
  | fuel1 + 1, fuel2 + 1, u, h1, h2 => by
    simp only [encodeVlqGo]
    by_cases h : u / 32 > 0
    · have hd : u / 32 < u := Nat.div_lt_self (by omega) (by omega)
      simp only [h, if_true]
      rw [encodeVlqGo_congr fuel1 fuel2 (u / 32) (by omega) (by omega)]
    · simp [h]

theorem encodeVlqAux_eq (u : Nat) :
    encodeVlqAux u =
      if u / 32 > 0 then (u % 32 + 32) :: encodeVlqAux (u / 32) else [u % 32] := by
  unfold encodeVlqAux
  conv_lhs => rw [encodeVlqGo]
  by_cases h : u / 32 > 0
  · have hd : u / 32 < u := Nat.div_lt_self (by omega) (by omega)
    simp only [h, if_true]
    rw [encodeVlqGo_congr u (u / 32 + 1) (u / 32) (by omega) (by omega)]
  · simp [h]

theorem base64Digit_base64Char : ∀ k : Nat, k < 64 → base64Digit (base64Char k) = some k := by
  decide

/-- Decoding inverts encoding digit-by-digit as long as no intermediate
32-bit shift overflows, i.e. while `u * 2 ^ shift` stays below `2^31`. -/
theorem decodeVlqAux_encodeVlqAux :
    ∀ (u shift : Nat) (acc : Int), u * 2 ^ shift < 2147483648 → shift < 32 →
    decodeVlqAux ((encodeVlqAux u).map base64Char) shift acc
      = (acc + (u : Int) * 2 ^ shift, (encodeVlqAux u).length) := by
  intro u
  induction u using Nat.strong_induction_on with
  | _ u ih =>
    intro shift acc hu hs
    have hsm : shift % 32 = shift := Nat.mod_eq_of_lt hs
    rw [encodeVlqAux_eq]
    by_cases h : u / 32 > 0
    · have hd : u / 32 < u := Nat.div_lt_self (by omega) (by omega)
      have hdig : u % 32 < 32 := Nat.mod_lt _ (by omega)
      simp only [h, if_true, List.map_cons]
      rw [decodeVlqAux, base64Digit_base64Char (u % 32 + 32) (by omega)]
      simp only [show 32 ≤ u % 32 + 32 from by omega, if_true]
      have hmono : (u % 32) * 2 ^ shift ≤ u * 2 ^ shift :=
        Nat.mul_le_mul_right _ (Nat.mod_le _ _)
      have hmod : (((u % 32 + 32 : Nat) : Int)) % 32 = ((u % 32 : Nat) : Int) := by
        push_cast
        omega
      rw [hsm, hmod]
      have hnn : (0 : Int) ≤ ((u % 32 : Nat) : Int) * 2 ^ shift := by positivity
      have hbound : ((u % 32 : Nat) : Int) * 2 ^ shift < 2147483648 := by
        calc ((u % 32 : Nat) : Int) * 2 ^ shift
            = (((u % 32) * 2 ^ shift : Nat) : Int) := by push_cast; ring
        _ < 2147483648 := by exact_mod_cast lt_of_le_of_lt hmono hu
      rw [toInt32_eq_self _ (by omega) hbound]
      have hle : (u / 32) * 2 ^ (shift + 5) ≤ u * 2 ^ shift := by
        rw [pow_add]
        calc u / 32 * (2 ^ shift * 2 ^ 5) = (u / 32 * 32) * 2 ^ shift := by ring
        _ ≤ u * 2 ^ shift := Nat.mul_le_mul_right _ (Nat.div_mul_le_self u 32)
      have hs5 : shift + 5 < 32 := by
        by_contra hcon
        have h1 : (2 : Nat) ^ 32 ≤ 2 ^ (shift + 5) := Nat.pow_le_pow_right (by omega) (by omega)
        have h2 : 2 ^ (shift + 5) ≤ (u / 32) * 2 ^ (shift + 5) :=
          Nat.le_mul_of_pos_left _ (by omega)
        have h4 : (2 : Nat) ^ 32 ≤ 2147483648 := by omega
        norm_num at h4
      have hu5 : (u / 32) * 2 ^ (shift + 5) < 2147483648 := by omega
      rw [ih (u / 32) hd (shift + 5) _ hu5 hs5]
      refine Prod.ext ?_ ?_
      · show acc + ((u % 32 : Nat) : Int) * 2 ^ shift + ((u / 32 : Nat) : Int) * 2 ^ (shift + 5)
            = acc + (u : Int) * 2 ^ shift
        have hsplit : ((u : Int)) = 32 * ((u / 32 : Nat) : Int) + ((u % 32 : Nat) : Int) := by
          exact_mod_cast (Nat.div_add_mod u 32).symm
        rw [hsplit, pow_add]
        ring
      · simp [List.length_map]
    · have hu32 : u < 32 := by
        by_contra hcon
        exact h (Nat.div_pos (by omega) (by omega))
      have hdig : u % 32 = u := Nat.mod_eq_of_lt hu32
      simp only [h, if_false, List.map_cons, List.map_nil]
      rw [decodeVlqAux, base64Digit_base64Char (u % 32) (by omega)]
      simp only [show ¬ (32 ≤ u % 32) from by omega, if_false]
      have hmod : (((u % 32 : Nat) : Int)) % 32 = (u : Int) := by
        push_cast
        omega
      rw [hsm, hmod]
      have hnn : (0 : Int) ≤ (u : Int) * 2 ^ shift := by positivity
      have hbound : (u : Int) * 2 ^ shift < 2147483648 := by
        calc (u : Int) * 2 ^ shift = ((u * 2 ^ shift : Nat) : Int) := by push_cast; ring
        _ < 2147483648 := by exact_mod_cast hu
      rw [toInt32_eq_self _ (by omega) hbound]
      simp

theorem jsVlqInit_toUint32 (n : Int) (h1 : -1073741824 < n) (h2 : n < 1073741824) :
    toUint32 (jsVlqInit n) = if n < 0 then 2 * (-n).toNat + 1 else 2 * n.toNat := by
  unfold jsVlqInit
  by_cases h : n < 0
  · rw [if_pos h, if_pos h]
    rw [toInt32_eq_self (-n) (by omega) (by omega)]
    rw [toInt32_eq_self (-n * 2) (by omega) (by omega)]
    rw [toUint32_eq_toNat _ (by omega) (by omega)]
    omega
  · rw [if_neg h, if_neg h]
    rw [toInt32_eq_self n (by omega) (by omega)]
    rw [toInt32_eq_self (n * 2) (by omega) (by omega)]
    rw [toUint32_eq_toNat _ (by omega) (by omega)]
    omega

/-- **C2** (amended).  Decoding the Base64-VLQ encoding of `n` yields `n`
again, consuming the whole encoded string, for every integer `n` with
`|n| ≤ 2^30 - 1`.  (The claimed range `-2^31 … 2^31 - 1` fails: the
JavaScript 32-bit shifts in the codec overflow from `|n| = 2^30` on, see
`decodeBase64Vlq_not_leftInverse_at_intMax`.) -/
theorem decode_encodeBase64Vlq (n : Int)
    (h1 : -1073741824 < n) (h2 : n < 1073741824) :
    decodeBase64Vlq (encodeBase64Vlq n) 0 = (n, (encodeBase64Vlq n).length) := by
  unfold decodeBase64Vlq encodeBase64Vlq
  rw [List.drop_zero]
  have hz := jsVlqInit_toUint32 n h1 h2
  set z := toUint32 (jsVlqInit n) with hzdef
  have hzlt : z < 2147483648 := by
    rw [hz]
    split <;> omega
  rw [decodeVlqAux_encodeVlqAux z 0 0 (by simpa using hzlt) (by omega)]
  dsimp only
  have hw : toInt32 (0 + (z : Int) * 2 ^ 0) = (z : Int) := by
    rw [toInt32_eq_self] <;> simp <;> omega
  by_cases h : n < 0
  · have hzval : (z : Int) = 1 + 2 * (-n) := by
      rw [hz, if_pos h]
      push_cast
      omega
    rw [hw, hzval]
    have hpar : (1 + 2 * (-n)) % 2 = 1 := by omega
    rw [if_pos hpar]
    have hq : (1 + 2 * (-n)) / 2 = -n := by omega
    rw [hq]
    simp [List.length_map]
  · have hzval : (z : Int) = 2 * n := by
      rw [hz, if_neg h]
      push_cast
      omega
    rw [hw, hzval]
    have hpar : ¬ ((2 * n) % 2 = 1) := by omega
    rw [if_neg hpar]
    have hq : (2 * n) / 2 = n := by omega
    rw [hq]
    simp [List.length_map]

/-- Witness for C2 (amended): the round-trip at `n = 16`, whose encoding is
the two-character string `gB`. -/
theorem decode_encodeBase64Vlq_witness :
    decodeBase64Vlq (encodeBase64Vlq 16) 0 = (16, (encodeBase64Vlq 16).length) :=
  decode_encodeBase64Vlq 16 (by norm_num) (by norm_num)

/-- **C2** counterexample: at `n = 2^31 - 1`, inside the range claimed by the
spec, the encoder's 32-bit shift overflows and the round-trip returns `-1`,
not `n`. -/
theorem decodeBase64Vlq_not_leftInverse_at_intMax :
    decodeBase64Vlq (encodeBase64Vlq 2147483647) 0 = (-1, 7) ∧
      (-1 : Int) ≠ 2147483647 := by
  constructor
  · decide
  · decide


/-- **C1**.  For every matcher `M` and path `p`, `M.test p` is true iff some
include pattern matches `p` — an empty include list counting as "all
included" — and the ignore matcher, when present, does not match `p`. -/
theorem Matcher_test_iff (m : Matcher) (path : String) :
    m.test path = true ↔
      ((m.patterns = [] ∨ ∃ p ∈ m.patterns, p path = true) ∧
        ∀ i, m.ignoreMatcher = some i → i.test path = false) := by
  cases m with
  | mk pats ig =>
    by_cases h : pats.any (fun p => p path) = true
    · have hex : ∃ p ∈ pats, p path = true := by simpa using h
      cases ig with
      | none => simp [Matcher.test, Matcher.patterns, Matcher.ignoreMatcher, h, hex]
      | some i => simp [Matcher.test, Matcher.patterns, Matcher.ignoreMatcher, h, hex]
    · have hnex : ¬ ∃ p ∈ pats, p path = true := by simpa using h
      by_cases he : pats.isEmpty
      · have hnil : pats = [] := by simpa [List.isEmpty_iff] using he
        cases ig with
        | none => simp [Matcher.test, Matcher.patterns, Matcher.ignoreMatcher, h, he, hnil]
        | some i => simp [Matcher.test, Matcher.patterns, Matcher.ignoreMatcher, h, he, hnil]
      · have hnnil : ¬ pats = [] := by simpa [List.isEmpty_iff] using he
        cases ig with
        | none =>
          simp [Matcher.test, Matcher.patterns, Matcher.ignoreMatcher, h, he, hnnil, hnex]
        | some i =>
          simp [Matcher.test, Matcher.patterns, Matcher.ignoreMatcher, h, he, hnnil, hnex]

/-- **C3**.  Assigning `content = s` makes `buffer` the encoding of `s` and
marks the file modified; assigning `buffer = b` makes `content` the decoding
of `b` and marks the file modified; each assignment drops the cached
counterpart and the cached line index, so later reads derive from the newly
assigned value. -/
theorem File_content_buffer_duality (enc : String → Buf) (dec : Buf → String)
    (f : File) (s : String) (b : Buf) :
    (f.setContent s).buffer enc = enc s ∧
    (f.setContent s).modified = true ∧
    (f.setContent s).destBuffer = none ∧
    (f.setContent s).index = none ∧
    (f.setContent s).content dec = s ∧
    (f.setBuffer b).content dec = dec b ∧
    (f.setBuffer b).modified = true ∧
    (f.setBuffer b).destContent = none ∧
    (f.setBuffer b).index = none ∧
    (f.setBuffer b).buffer enc = b :=
  ⟨rfl, rfl, rfl, rfl, rfl, rfl, rfl, rfl, rfl, rfl⟩

/-- **C4** (amended).  In build mode, for a non-generated file whose set
output path equals its source path (no validation veto, no source-map
emission): if unmodified, `save` writes nothing, records no error and calls
the callback; if modified and `overwrite` is false, `save` records one
file-level error, writes nothing, and still calls the callback.  (The claim
as stated also covers a modified file whose output path is *unset* — its
destination path falls back to the source path — but there `save` skips
silently without recording an error, see
`save_no_overwrite_error_without_path`.) -/
theorem save_source_dest_equal (cfg : SaveConfig) (f : File) (p : String)
    (hmode : cfg.buildMode = BuildMode.build)
    (hveto : cfg.validateVeto = false)
    (hsrc : f.initalPath = some p)
    (hpath : f.path = some p)
    (hsm : (cfg.sourceMap && cfg.hasSourceMapData && cfg.sourceMapEmit) = false) :
    (f.modified = false →
      File.save cfg f = { wrote := false, errors := 0, callbackCalled := true }) ∧
    (f.modified = true → cfg.overwrite = false →
      File.save cfg f = { wrote := false, errors := 1, callbackCalled := true }) := by
  constructor
  · intro hmod
    simp [File.save, hveto, hpath, hsrc, hsm, hmod, File.generated, pathEquals]
  · intro hmod hov
    simp [File.save, hveto, hpath, hsrc, hsm, hmod, hov, File.generated, pathEquals]

/-- Witness for C4 (amended): a modified file saved back onto its source path
without `overwrite` gets one error and no write; the same file unmodified is
skipped cleanly. -/
theorem save_source_dest_equal_witness :
    File.save { buildMode := BuildMode.build }
        { initalPath := some "/s/a.txt", path := some "/s/a.txt",
          destContent := some "x" }
      = { wrote := false, errors := 1, callbackCalled := true } :=
  (save_source_dest_equal { buildMode := BuildMode.build }
    { initalPath := some "/s/a.txt", path := some "/s/a.txt", destContent := some "x" }
    "/s/a.txt" rfl rfl rfl rfl rfl).2 rfl rfl

/-- **C4** counterexample.  A non-generated *modified* file whose `path` is
unset still has `destPath = srcPath`, yet `save` in build mode with
`overwrite` false records no error at all (it returns at the
`savePath == undefined` check), where the claim as stated requires a
file-level error. -/
theorem save_no_overwrite_error_without_path :
    (File.generated { initalPath := some "/s/a.txt", destContent := some "x" } = false) ∧
    (File.destPath "/g" { initalPath := some "/s/a.txt", destContent := some "x" }
      = File.srcPath "/g" { initalPath := some "/s/a.txt", destContent := some "x" }) ∧
    (File.modified { initalPath := some "/s/a.txt", destContent := some "x" } = true) ∧
    (File.save { buildMode := BuildMode.build }
        { initalPath := some "/s/a.txt", destContent := some "x" }
      = { wrote := false, errors := 0, callbackCalled := true }) :=
  ⟨rfl, rfl, rfl, rfl⟩

/-- **C8** (amended).  The stage created by `src(pattern)` forwards a file to
the next stage iff the file's `path` is set *and* its destination path (which
then equals `path`) matches the compiled matcher; a file with no set path is
suppressed even when its destination path (the source-path fallback) matches. -/
theorem srcStageForwards_iff (genPath : String) (m : Matcher) (f : File) :
    srcStageForwards m f = true ↔
      (f.path.isSome = true ∧ m.test (f.destPath genPath) = true) := by
  cases hp : f.path with
  | none => simp [srcStageForwards, srcAdd, hp]
  | some p => simp [srcStageForwards, srcAdd, hp, File.destPath]

/-- **C8** counterexample.  A generated file that never received a path has a
destination path (the `<generated>` fallback) matched by the matcher, yet the
`src` stage suppresses it: `add` tests `file.path`, not `file.destPath`. -/
theorem srcStage_suppresses_pathless_file :
    (Matcher.mk [fun _ => true] none).test
        (File.destPath "/cwd/generated" {}) = true ∧
    srcStageForwards (Matcher.mk [fun _ => true] none) {} = false := by
  constructor
  · simp [Matcher.test, File.destPath, File.srcPath]
  · rfl


/-- **C9** (amended).  `toSourceMapObject` throws a `TypeError` exactly for
maps carrying a `sections` field and for maps whose `version` field is
*truthy* and not 3; a plain map with version 3 — and, against the claim's
wording, also one with version 0 or no version field, since `0` and
`undefined` are falsy in the `version && version != 3` guard — is returned
unchanged. -/
theorem toSourceMapObject_error_iff (m : RawSourceMap) :
    ((toSourceMapObject m).isOk = false ↔
      (m.hasSections = true ∨ (jsTruthyNum m.version = true ∧ m.version ≠ some 3))) ∧
    (m.hasSections = false → m.version = some 3 → toSourceMapObject m = Except.ok m) := by
  constructor
  · unfold toSourceMapObject
    by_cases hs : m.hasSections
    · simp [hs, Except.isOk, Except.toBool]
    · by_cases ht : jsTruthyNum m.version = true
      · by_cases hv : m.version = some 3
        · simp [hs, ht, hv, Except.isOk, Except.toBool]
        · simp [hs, ht, hv, Except.isOk, Except.toBool]
      · simp [hs, ht, Except.isOk, Except.toBool]
  · intro hs hv
    simp [toSourceMapObject, hs, hv, jsTruthyNum]

/-- Witness for C9 (amended): a plain version-3 map parses. -/
theorem toSourceMapObject_error_iff_witness :
    toSourceMapObject { hasSections := false, version := some 3 }
      = Except.ok { hasSections := false, version := some 3 } :=
  (toSourceMapObject_error_iff { hasSections := false, version := some 3 }).2 rfl rfl

/-- **C9** counterexample.  A map whose `version` field is `0` — a version
"other than 3" — is accepted, because `0` is falsy in the
`version && version != 3` check. -/
theorem toSourceMapObject_accepts_version_zero :
    toSourceMapObject { hasSections := false, version := some 0 }
      = Except.ok { hasSections := false, version := some 0 } ∧
    (some (0 : Int) ≠ some (3 : Int)) := by
  refine ⟨rfl, by decide⟩


/-- One unfolding of the insertion loop at a valid index. -/
theorem insertMappingAt_succ (row : List Mapping) (m : Mapping) (i : Nat)
    (hi : i < row.length) :
    insertMappingAt row m (i + 1) =
      if m.generatedColumn ≥ row[i].generatedColumn then
        (if m.generatedColumn = row[i].generatedColumn then row.set i m
          else List.insertIdx (i + 1) m row)
      else insertMappingAt row m i := by
  rw [insertMappingAt, List.getElem?_eq_getElem hi]

/-- Behavior of the `addMapping` insertion loop when every mapping at index
`i` and beyond has a column strictly greater than the new one: the result
stays sorted; if some earlier index holds exactly the new column the row
length is unchanged (replacement), otherwise it grows by one (splice or
unshift). -/
theorem insertMappingAt_spec (row : List Mapping) (m : Mapping) :
    ∀ i, i ≤ row.length → RowSorted row →
      (∀ j (hj : j < row.length), i ≤ j →
        m.generatedColumn < row[j].generatedColumn) →
      (RowSorted (insertMappingAt row m i) ∧
        ((∃ j, ∃ hj : j < row.length, j < i ∧
            row[j].generatedColumn = m.generatedColumn) →
          (insertMappingAt row m i).length = row.length) ∧
        ((∀ j (hj : j < row.length), j < i →
            row[j].generatedColumn ≠ m.generatedColumn) →
          (insertMappingAt row m i).length = row.length + 1)) := by
  intro i
  induction i with
  | zero =>
    intro _ hs hinv
    refine ⟨?_, ?_, ?_⟩
    · show RowSorted (m :: row)
      refine List.pairwise_cons.mpr ⟨?_, hs⟩
      intro b hb
      obtain ⟨j, hj, rfl⟩ := List.mem_iff_getElem.mp hb
      exact le_of_lt (hinv j hj (Nat.zero_le _))
    · rintro ⟨j, hj, hji, _⟩
      omega
    · intro _
      show (m :: row).length = row.length + 1
      simp
  | succ i ih =>
    intro hle hs hinv
    have hi : i < row.length := by omega
    have hs0 := List.pairwise_iff_getElem.mp hs
    rw [insertMappingAt_succ row m i hi]
    by_cases hge : m.generatedColumn ≥ row[i].generatedColumn
    · by_cases heq : m.generatedColumn = row[i].generatedColumn
      · rw [if_pos hge, if_pos heq]
        refine ⟨?_, ?_, ?_⟩
        · refine List.pairwise_iff_getElem.mpr ?_
          intro a b ha hb hab
          have ha2 : a < row.length := by simpa using ha
          have hb2 : b < row.length := by simpa using hb
          rw [List.getElem_set, List.getElem_set]
          split_ifs with h1 h2 h2
          · exact le_refl _
          · exact le_of_lt (hinv b hb2 (by omega))
          · subst h2
            have h3 := hs0 a i ha2 hi hab
            omega
          · exact hs0 a b ha2 hb2 hab
        · intro _
          simp
        · intro hall
          exact absurd heq.symm (hall i hi (by omega))
      · have hgt : row[i].generatedColumn < m.generatedColumn := by
          omega
        rw [if_pos hge, if_neg heq]
        have hlen : (List.insertIdx (i + 1) m row).length = row.length + 1 :=
          List.length_insertIdx (i + 1) row (by omega)
        refine ⟨?_, ?_, ?_⟩
        · refine List.pairwise_iff_getElem.mpr ?_
          intro a b ha hb hab
          rw [hlen] at ha hb
          rcases Nat.lt_trichotomy a (i + 1) with ha1 | ha1 | ha1
          · have hga : (List.insertIdx (i + 1) m row)[a] = row[a] :=
              List.getElem_insertIdx_of_lt row m (i + 1) a ha1 (by omega)
            rcases Nat.lt_trichotomy b (i + 1) with hb1 | hb1 | hb1
            · have hgb : (List.insertIdx (i + 1) m row)[b] = row[b] :=
                List.getElem_insertIdx_of_lt row m (i + 1) b hb1 (by omega)
              rw [hga, hgb]
              exact hs0 a b (by omega) (by omega) hab
            · have hgb : (List.insertIdx (i + 1) m row)[b] = m := by
                subst hb1
                exact List.getElem_insertIdx_self row m (i + 1) (by omega)
              rw [hga, hgb]
              rcases Nat.lt_or_ge a i with h2 | h2
              · exact le_of_lt (lt_of_le_of_lt (hs0 a i (by omega) hi h2) hgt)
              · have : a = i := by omega
                subst this
                exact le_of_lt hgt
            · obtain ⟨k, rfl⟩ : ∃ k, b = (i + 1) + k + 1 := ⟨b - i - 2, by omega⟩
              have hgb : (List.insertIdx (i + 1) m row)[(i + 1) + k + 1] = row[i + 1 + k] :=
                List.getElem_insertIdx_add_succ row m (i + 1) k (by omega)
              rw [hga, hgb]
              exact hs0 a (i + 1 + k) (by omega) (by omega) (by omega)
          · have hga : (List.insertIdx (i + 1) m row)[a] = m := by
              subst ha1
              exact List.getElem_insertIdx_self row m (i + 1) (by omega)
            obtain ⟨k, rfl⟩ : ∃ k, b = (i + 1) + k + 1 := ⟨b - i - 2, by omega⟩
            have hgb : (List.insertIdx (i + 1) m row)[(i + 1) + k + 1] = row[i + 1 + k] :=
              List.getElem_insertIdx_add_succ row m (i + 1) k (by omega)
            rw [hga, hgb]
            exact le_of_lt (hinv (i + 1 + k) (by omega) (by omega))
          · obtain ⟨k, rfl⟩ : ∃ k, a = (i + 1) + k + 1 := ⟨a - i - 2, by omega⟩
            have hga : (List.insertIdx (i + 1) m row)[(i + 1) + k + 1] = row[i + 1 + k] :=
              List.getElem_insertIdx_add_succ row m (i + 1) k (by omega)
            obtain ⟨k2, rfl⟩ : ∃ k2, b = (i + 1) + k2 + 1 := ⟨b - i - 2, by omega⟩
            have hgb : (List.insertIdx (i + 1) m row)[(i + 1) + k2 + 1] = row[i + 1 + k2] :=
              List.getElem_insertIdx_add_succ row m (i + 1) k2 (by omega)
            rw [hga, hgb]
            exact hs0 (i + 1 + k) (i + 1 + k2) (by omega) (by omega) (by omega)
        · rintro ⟨j, hj, hji, hcol⟩
          have hjle : j ≤ i := by omega
          rcases Nat.lt_or_ge j i with h2 | h2
          · have := hs0 j i hj hi h2
            omega
          · have : j = i := by omega
            subst this
            omega
        · intro _
          exact hlen
    · have hlt : m.generatedColumn < row[i].generatedColumn := by omega
      rw [if_neg hge]
      have hinv2 : ∀ j (hj : j < row.length), i ≤ j →
          m.generatedColumn < row[j].generatedColumn := by
        intro j hj hij
        rcases Nat.eq_or_lt_of_le hij with rfl | h2
        · exact hlt
        · exact hinv j hj (by omega)
      obtain ⟨c1, c2, c3⟩ := ih (by omega) hs hinv2
      refine ⟨c1, ?_, ?_⟩
      · rintro ⟨j, hj, hji, hcol⟩
        refine c2 ⟨j, hj, ?_, hcol⟩
        rcases Nat.lt_or_ge j i with h2 | h2
        · exact h2
        · have : j = i := by omega
          subst this
          omega
      · intro hall
        exact c3 (fun j hj hji => hall j hj (by omega))


/-- `addMappingRow` on a non-empty row compares against the last mapping. -/
theorem addMappingRow_eq_of_getLast (row : List Mapping) (m last : Mapping)
    (h : row.getLast? = some last) :
    addMappingRow row m =
      if m.generatedColumn ≥ last.generatedColumn then row ++ [m]
      else insertMappingAt row m row.length := by
  unfold addMappingRow
  rw [h]

/-- Behavior of one `addMapping` insertion into a sorted row: the row stays
sorted; a column at or past the row's last column is appended (even when
equal to it); a smaller column replaces when it already occurs and splices in
otherwise. -/
theorem addMappingRow_spec (row : List Mapping) (m : Mapping) (hs : RowSorted row) :
    RowSorted (addMappingRow row m) ∧
    (∀ last, row.getLast? = some last →
      (m.generatedColumn ≥ last.generatedColumn →
        (addMappingRow row m).length = row.length + 1) ∧
      (m.generatedColumn < last.generatedColumn →
        m.generatedColumn ∈ row.map Mapping.generatedColumn →
        (addMappingRow row m).length = row.length) ∧
      (m.generatedColumn < last.generatedColumn →
        m.generatedColumn ∉ row.map Mapping.generatedColumn →
        (addMappingRow row m).length = row.length + 1)) := by
  cases hlast : row.getLast? with
  | none =>
    have hnil : row = [] := List.getLast?_eq_none_iff.mp hlast
    subst hnil
    refine ⟨?_, ?_⟩
    · show RowSorted [m]
      simp [RowSorted]
    · intro last h
      exact absurd h (by simp)
  | some last =>
    have hne : row ≠ [] := by
      intro h
      subst h
      simp at hlast
    have hpos : 0 < row.length := List.length_pos.mpr hne
    have hs0 := List.pairwise_iff_getElem.mp hs
    have hlast2 : last = row[row.length - 1] := by
      have := List.getLast?_eq_getElem? row
      rw [hlast, List.getElem?_eq_getElem (by omega)] at this
      exact Option.some_injective _ this
    rw [addMappingRow_eq_of_getLast row m last hlast]
    by_cases hge : m.generatedColumn ≥ last.generatedColumn
    · rw [if_pos hge]
      refine ⟨?_, ?_⟩
      · refine List.pairwise_append.mpr ⟨hs, by simp [RowSorted], ?_⟩
        intro a ha b hb
        rw [List.mem_singleton.mp hb]
        obtain ⟨j, hj, rfl⟩ := List.mem_iff_getElem.mp ha
        rcases Nat.lt_or_ge j (row.length - 1) with h2 | h2
        · exact le_trans (hs0 j (row.length - 1) hj (by omega) h2) (hlast2 ▸ hge)
        · have : j = row.length - 1 := by omega
          subst this
          exact hlast2 ▸ hge
      · intro last2 hlast3
        obtain rfl : last = last2 := Option.some_injective _ hlast3
        refine ⟨fun _ => by simp, fun hlt _ => absurd hge (by omega),
          fun hlt _ => absurd hge (by omega)⟩
    · rw [if_neg hge]
      obtain ⟨c1, c2, c3⟩ :=
        insertMappingAt_spec row m row.length (le_refl _) hs
          (fun j hj hij => absurd hij (by omega))
      refine ⟨c1, ?_⟩
      intro last2 hlast3
      obtain rfl : last = last2 := Option.some_injective _ hlast3
      refine ⟨fun h2 => absurd h2 hge, ?_, ?_⟩
      · intro _ hmem
        obtain ⟨x, hx, hxcol⟩ := List.mem_map.mp hmem
        obtain ⟨j, hj, rfl⟩ := List.mem_iff_getElem.mp hx
        exact c2 ⟨j, hj, hj, hxcol⟩
      · intro _ hmem
        refine c3 ?_
        intro j hj _ hcol
        exact hmem (List.mem_map.mpr ⟨row[j], List.getElem_mem hj, hcol⟩)

theorem rowAt_setRow_self (ms : List (List Mapping)) (i : Nat) (row : List Mapping) :
    rowAt (setRow ms i row) i = row := by
  unfold setRow rowAt
  split
  · rename_i h
    rw [List.getD, List.get?_eq_getElem?, List.getElem?_set_self (by simpa using h)]
    rfl
  · rename_i h
    have hlen : (ms ++ List.replicate (i - ms.length) ([] : List Mapping)).length = i := by
      simp
      omega
    rw [List.getD, List.get?_eq_getElem?, List.getElem?_append_right (le_of_eq hlen)]
    simp [hlen]

theorem mem_setRow (ms : List (List Mapping)) (i : Nat) (row r : List Mapping)
    (hr : r ∈ setRow ms i row) : r ∈ ms ∨ r = row ∨ r = [] := by
  unfold setRow at hr
  split at hr
  · rcases List.mem_or_eq_of_mem_set hr with h | h
    · exact Or.inl h
    · exact Or.inr (Or.inl h)
  · rcases List.mem_append.mp hr with h | h
    · rcases List.mem_append.mp h with h2 | h2
      · exact Or.inl h2
      · exact Or.inr (Or.inr (List.eq_of_mem_replicate h2))
    · exact Or.inr (Or.inl (List.mem_singleton.mp h))

theorem rowAt_sorted (ms : List (List Mapping)) (h : ∀ r ∈ ms, RowSorted r)
    (i : Nat) : RowSorted (rowAt ms i) := by
  unfold rowAt List.getD
  rw [List.get?_eq_getElem?]
  cases hg : ms[i]? with
  | none => simp [RowSorted]
  | some r =>
    have hmem : r ∈ ms := List.getElem?_mem hg
    simpa using h r hmem

theorem addSource_mappings (b : SourceMapBuilder) (sp : String) :
    (b.addSource sp).1.mappings = b.mappings := by
  by_cases h : b.indexOfSource sp < 0 <;> simp [SourceMapBuilder.addSource, h]

theorem addName_mappings (b : SourceMapBuilder) (nm : String) :
    (b.addName nm).1.mappings = b.mappings := by
  unfold SourceMapBuilder.addName
  cases b.names.indexOf? nm <;> rfl

/-- `addMapping` only touches the `generatedLine` row of the table, inserting
a mapping whose generated column is the given one. -/
theorem addMapping_mappings (b : SourceMapBuilder) (gl : Nat) (gc : Int)
    (sp : Option String) (sl sc : Option Int) (nm : Option String) :
    ∃ m : Mapping, m.generatedColumn = gc ∧
      (SourceMapBuilder.addMapping b gl gc sp sl sc nm).mappings
        = setRow b.mappings gl (addMappingRow (rowAt b.mappings gl) m) := by
  unfold SourceMapBuilder.addMapping
  cases sp with
  | none => exact ⟨⟨gc, none, none, none, none⟩, rfl, rfl⟩
  | some sp =>
    cases nm with
    | none =>
      refine ⟨⟨gc, some (b.addSource sp).2, sl, sc, none⟩, rfl, ?_⟩
      dsimp only [addMappingCore]
      rw [addSource_mappings]
    | some nm =>
      refine ⟨⟨gc, some (b.addSource sp).2, sl, sc,
        some ((b.addSource sp).1.addName nm).2⟩, rfl, ?_⟩
      dsimp only [addMappingCore]
      rw [addName_mappings, addSource_mappings]

/-- **C5** (amended).  Starting from a builder whose rows are sorted by
generated column, `addMapping` keeps every row sorted (so any sequence of
`addMapping` calls does); on the touched row, a generated column *at or past*
the row's last column is appended — in particular a duplicate of the last
column leaves two mappings with that column, see
`addMapping_duplicate_last_column_appends` — while a column strictly before
the last one replaces the existing mapping when the column already occurs in
the row. -/
theorem addMapping_sorted (b : SourceMapBuilder) (gl : Nat) (gc : Int)
    (sp : Option String) (sl sc : Option Int) (nm : Option String)
    (hinv : ∀ r ∈ b.mappings, RowSorted r) :
    (∀ r ∈ (SourceMapBuilder.addMapping b gl gc sp sl sc nm).mappings, RowSorted r) ∧
    (∀ last, (rowAt b.mappings gl).getLast? = some last →
      (gc ≥ last.generatedColumn →
        (rowAt (SourceMapBuilder.addMapping b gl gc sp sl sc nm).mappings gl).length
          = (rowAt b.mappings gl).length + 1) ∧
      (gc < last.generatedColumn →
        gc ∈ (rowAt b.mappings gl).map Mapping.generatedColumn →
        (rowAt (SourceMapBuilder.addMapping b gl gc sp sl sc nm).mappings gl).length
          = (rowAt b.mappings gl).length)) := by
  obtain ⟨m, hgc, heq⟩ := addMapping_mappings b gl gc sp sl sc nm
  have hrow := addMappingRow_spec (rowAt b.mappings gl) m (rowAt_sorted _ hinv gl)
  constructor
  · intro r hr
    rw [heq] at hr
    rcases mem_setRow _ _ _ _ hr with h | h | h
    · exact hinv r h
    · rw [h]
      exact hrow.1
    · rw [h]
      simp [RowSorted]
  · intro last hlast
    obtain ⟨p1, p2, _⟩ := hrow.2 last hlast
    subst hgc
    rw [heq, rowAt_setRow_self]
    exact ⟨p1, p2⟩

/-- Witness for C5 (amended): adding a column equal to the single existing
mapping's column appends, growing the row from one to two mappings. -/
theorem addMapping_sorted_witness :
    (rowAt (SourceMapBuilder.addMapping
        { mappings := [[{ generatedColumn := 5 }]] } 0 5 none none none none).mappings 0).length
      = (rowAt ({ mappings := [[{ generatedColumn := 5 }]] } : SourceMapBuilder).mappings 0).length + 1 :=
  ((addMapping_sorted { mappings := [[{ generatedColumn := 5 }]] } 0 5 none none none none
      (by intro r hr; simp at hr; subst hr; simp [RowSorted])).2
    { generatedColumn := 5 } rfl).1 (le_refl _)

/-- **C5** counterexample.  Replaying the repository's own `addMappingTest`:
two `addMapping(0, 10, "foo.js", 1, _)` calls leave *two* mappings with
generated column 10 in the row — the duplicate column is appended, not
replaced, because the duplicate test only runs for columns strictly before
the row's last column. -/
theorem addMapping_duplicate_last_column_appends :
    (rowAt ((SourceMapBuilder.addMapping
          (SourceMapBuilder.addMapping {} 0 10 (some "foo.js") (some 1) (some 2) none)
          0 10 (some "foo.js") (some 1) (some 3) none).mappings) 0).map
        Mapping.generatedColumn = [10, 10] := by
  rfl


/-- The backward scan of `computeLines` finds the nearest earlier line with a
non-empty row and yields that row's first mapping. -/
theorem findPrevLine_eq (ms : List (List Mapping)) :
    ∀ (l line : Nat) (first : Mapping), line < l →
      (rowAt ms line).head? = some first →
      (∀ k, line < k → k < l → (rowAt ms k).head? = none) →
      findPrevLine ms l = some (line, first) := by
  intro l
  induction l with
  | zero =>
    intro line first h
    omega
  | succ l ih =>
    intro line first hline hhead hbetween
    rw [findPrevLine]
    rcases Nat.lt_or_ge line l with h2 | h2
    · rw [hbetween l (by omega) (by omega)]
      exact ih line first h2 hhead (fun k hk1 hk2 => hbetween k hk1 (by omega))
    · have : line = l := by omega
      subst this
      rw [hhead]

/-- **C6** (amended).  `computeLines` processes lines in increasing order
(last conjunct: one unfolding of the loop); a line whose row is missing or
does not start at generated column 0 is filled by propagating the *first*
mapping of the nearest earlier line that has mappings at that point — not its
trailing mapping, see `computeLines_uses_first_not_trailing`.  First
conjunct: when that mapping carries a source index, a mapping with that
source index, its sourceLine advanced by the line distance, and sourceColumn
0 is inserted at generated column 0.  Second conjunct: when it carries no
source index, nothing is inserted for the line — the scan breaks and the
table only materializes the (hole or already present) row. -/
theorem computeLine_fills_from_first (ms : List (List Mapping)) (l line : Nat)
    (first : Mapping)
    (hline : line < l)
    (hhead : (rowAt ms line).head? = some first)
    (hbetween : ∀ k, line < k → k < l → (rowAt ms k).head? = none)
    (hneed : ∀ m, (rowAt ms l).head? = some m → m.generatedColumn > 0) :
    (∀ si : Nat, first.sourceIndex = some si →
      computeLine ms l
        = setRow ms l
            ({ generatedColumn := 0, sourceIndex := some si,
               sourceLine := first.sourceLine.map (fun sl => sl + ((l - line : Nat) : Int)),
               sourceColumn := some 0 } :: rowAt ms l)) ∧
    (first.sourceIndex = none →
      computeLine ms l = setRow ms l (rowAt ms l)) ∧
    (∀ n, computeLinesGo ms l (n + 1) = computeLinesGo (computeLine ms l) (l + 1) n) := by
  have hfill :
      (match (rowAt ms l).head? with
        | none => true
        | some m => decide (m.generatedColumn > 0)) = true := by
    cases hh : (rowAt ms l).head? with
    | none => rfl
    | some m =>
      simpa using hneed m hh
  have hprev := findPrevLine_eq ms l line first hline hhead hbetween
  refine ⟨?_, ?_, fun n => rfl⟩
  · intro si hsi
    unfold computeLine
    dsimp only
    rw [hfill, if_pos rfl, hprev]
    dsimp only
    rw [hsi]
  · intro hsi
    unfold computeLine
    dsimp only
    rw [hfill, if_pos rfl, hprev]
    dsimp only
    rw [hsi]

/-- Witness for C6 (amended), both fill cases: a one-mapping line 0 at
column 1 with source index 0 and source line 101 makes the empty line 1
receive a column-0 mapping at source line 102; the same line 0 mapping
*without* a source index leaves line 1 an untouched empty row. -/
theorem computeLine_fills_from_first_witness :
    (computeLine [[⟨1, some 0, some 101, some 101, none⟩]] 1
      = setRow [[⟨1, some 0, some 101, some 101, none⟩]] 1
          (⟨0, some 0, some 102, some 0, none⟩
            :: rowAt [[⟨1, some 0, some 101, some 101, none⟩]] 1)) ∧
    (computeLine [[⟨1, none, some 101, some 101, none⟩]] 1
      = setRow [[⟨1, none, some 101, some 101, none⟩]] 1
          (rowAt [[⟨1, none, some 101, some 101, none⟩]] 1)) := by
  constructor
  · have h := (computeLine_fills_from_first
      [[⟨1, some 0, some 101, some 101, none⟩]] 1 0
      ⟨1, some 0, some 101, some 101, none⟩
      (by omega) rfl (fun k hk1 hk2 => absurd hk1 (by omega))
      (fun m hm => by simp [rowAt] at hm)).1 0 rfl
    simpa using h
  · exact (computeLine_fills_from_first
      [[⟨1, none, some 101, some 101, none⟩]] 1 0
      ⟨1, none, some 101, some 101, none⟩
      (by omega) rfl (fun k hk1 hk2 => absurd hk1 (by omega))
      (fun m hm => by simp [rowAt] at hm)).2.1 rfl

/-- **C6** counterexample.  Line 0 holds two mappings, first at source line
10, trailing at source line 20.  `computeLines` fills the empty line 1 from
the *first* mapping: the inserted mapping has source line 11, not the 21 the
claim's "trailing (last) mapping" would give. -/
theorem computeLines_uses_first_not_trailing :
    (SourceMapBuilder.computeLines
        { mappings := [[⟨0, some 0, some 10, some 0, none⟩,
          ⟨5, some 0, some 20, some 0, none⟩], []] }).mappings
      = [[⟨0, some 0, some 10, some 0, none⟩, ⟨5, some 0, some 20, some 0, none⟩],
         [⟨0, some 0, some 11, some 0, none⟩]] ∧
    (([⟨0, some 0, some 10, some 0, none⟩,
        ⟨5, some 0, some 20, some 0, none⟩] : List Mapping).getLast?.bind
        Mapping.sourceLine = some 20) ∧
    some ((10 : Int) + 1) ≠ some ((20 : Int) + 1) := by
  refine ⟨rfl, rfl, by decide⟩


theorem splitSegsC_ne_nil : ∀ cs : List Char, splitSegsC cs ≠ []
  | [], h => by simp [splitSegsC] at h
  | c :: rest, h => by
    rw [splitSegsC] at h
    by_cases hc : c = '/'
    · simp [hc] at h
    · cases h2 : splitSegsC rest with
      | nil => simp [hc, h2] at h
      | cons s ss => simp [hc, h2] at h

theorem splitSegsC_no_slash (cs : List Char) : ∀ s ∈ splitSegsC cs, '/' ∉ s := by
  induction cs with
  | nil =>
    intro s hs
    simp [splitSegsC] at hs
    simp [hs]
  | cons c rest ih =>
    intro s hs
    rw [splitSegsC] at hs
    by_cases hc : c = '/'
    · rw [if_pos hc] at hs
      rcases List.mem_cons.mp hs with rfl | hs
      · simp
      · exact ih s hs
    · rw [if_neg hc] at hs
      cases h2 : splitSegsC rest with
      | nil => exact absurd h2 (splitSegsC_ne_nil rest)
      | cons x ss =>
        rw [h2] at hs
        rcases List.mem_cons.mp hs with rfl | hs
        · intro hmem
          rcases List.mem_cons.mp hmem with h3 | h3
          · exact hc h3.symm
          · exact ih x (h2 ▸ List.mem_cons_self x ss) h3
        · exact ih s (h2 ▸ List.mem_cons_of_mem x hs)

theorem splitSegsC_of_no_slash : ∀ s : List Char, '/' ∉ s → splitSegsC s = [s]
  | [], _ => rfl
  | c :: rest, h => by
    rw [splitSegsC]
    have hc : ¬ c = '/' := fun hh => h (hh ▸ List.mem_cons_self c rest)
    rw [splitSegsC_of_no_slash rest (fun hh => h (List.mem_cons_of_mem c hh))]
    simp [hc]

theorem splitSegsC_append_slash : ∀ (s cs : List Char), '/' ∉ s →
    splitSegsC (s ++ '/' :: cs) = s :: splitSegsC cs
  | [], cs, _ => by simp [splitSegsC]
  | c :: rest, cs, h => by
    have hc : ¬ c = '/' := fun hh => h (hh ▸ List.mem_cons_self c rest)
    have ih := splitSegsC_append_slash rest cs (fun hh => h (List.mem_cons_of_mem c hh))
    rw [List.cons_append, splitSegsC, ih]
    simp [hc]

theorem splitSegsC_joinSegsC : ∀ segs : List (List Char), segs ≠ [] →
    (∀ s ∈ segs, '/' ∉ s) → splitSegsC (joinSegsC segs) = segs
  | [], h, _ => absurd rfl h
  | [s], _, hs => by
    rw [joinSegsC, splitSegsC_of_no_slash s (hs s (List.mem_singleton_self s))]
  | s :: s2 :: rest, _, hs => by
    rw [show joinSegsC (s :: s2 :: rest) = s ++ '/' :: joinSegsC (s2 :: rest) from rfl]
    rw [splitSegsC_append_slash s _ (hs s (List.mem_cons_self _ _))]
    rw [splitSegsC_joinSegsC (s2 :: rest) (by simp)
      (fun x hx => hs x (List.mem_cons_of_mem s hx))]

/-- The segments a path normalization may emit: non-empty, not a dot form,
and slash-free. -/
def PlainSeg (s : List Char) : Prop :=
  s ≠ [] ∧ s ≠ ['.'] ∧ s ≠ ['.', '.'] ∧ '/' ∉ s

theorem normStep_plain (stack : List (List Char)) (seg : List Char)
    (hstack : ∀ s ∈ stack, PlainSeg s) (hseg : '/' ∉ seg) :
    ∀ s ∈ normStep false stack seg, PlainSeg s := by
  unfold normStep
  split_ifs with h1 h2 h3 h4
  · exact hstack
  · intro s hs
    exact hstack s (List.dropLast_subset stack hs)
  · exact absurd h4 (by simp)
  · exact hstack
  · intro s hs
    rcases List.mem_append.mp hs with h3 | h3
    · exact hstack s h3
    · rw [List.mem_singleton.mp h3]
      push_neg at h1
      exact ⟨h1.1, h1.2, h2, hseg⟩

theorem foldl_normStep_plain (segs : List (List Char)) :
    ∀ (stack : List (List Char)), (∀ s ∈ stack, PlainSeg s) →
      (∀ s ∈ segs, '/' ∉ s) →
      ∀ s ∈ List.foldl (normStep false) stack segs, PlainSeg s := by
  induction segs with
  | nil =>
    intro stack hstack _
    simpa using hstack
  | cons seg rest ih =>
    intro stack hstack hsegs
    rw [List.foldl_cons]
    exact ih _ (normStep_plain stack seg hstack (hsegs seg (List.mem_cons_self _ _)))
      (fun s hs => hsegs s (List.mem_cons_of_mem _ hs))

theorem normSegs_plain (segs : List (List Char)) (h : ∀ s ∈ segs, '/' ∉ s) :
    ∀ s ∈ normSegs false segs, PlainSeg s :=
  foldl_normStep_plain segs [] (by simp) h

/-- On a stack of plain segments `..` just drops the last one. -/
theorem normStep_dotdot (stack : List (List Char))
    (hstack : ∀ s ∈ stack, PlainSeg s) :
    normStep false stack ['.', '.'] = stack.dropLast := by
  unfold normStep
  rw [if_neg (by simp), if_pos rfl]
  cases hst : stack.getLast? with
  | none =>
    have hnil : stack = [] := List.getLast?_eq_none_iff.mp hst
    simp [hnil]
  | some last =>
    have hne : stack ≠ [] := by
      intro h
      rw [h] at hst
      simp at hst
    have hlast : last ∈ stack := List.mem_of_getLast?_eq_some hst
    refine if_pos ⟨hne, ?_⟩
    intro hcon
    exact (hstack last hlast).2.2.1 (Option.some_injective _ hcon)

theorem foldl_normStep_dotdot (k : Nat) :
    ∀ (stack : List (List Char)), (∀ s ∈ stack, PlainSeg s) →
      List.foldl (normStep false) stack (List.replicate k ['.', '.'])
        = stack.take (stack.length - k) := by
  induction k with
  | zero =>
    intro stack _
    simp [List.take_length]
  | succ k ih =>
    intro stack hstack
    rw [List.replicate_succ, List.foldl_cons, normStep_dotdot stack hstack]
    rw [ih stack.dropLast (fun s hs => hstack s (List.dropLast_subset stack hs))]
    rw [List.length_dropLast, List.dropLast_eq_take, List.take_take]
    congr 1
    omega

/-- A plain segment is just pushed. -/
theorem normStep_push (stack : List (List Char)) (seg : List Char)
    (hseg : PlainSeg seg) : normStep false stack seg = stack ++ [seg] := by
  unfold normStep
  rw [if_neg (by simp [hseg.1, hseg.2.1]), if_neg hseg.2.2.1]

theorem foldl_normStep_push (segs : List (List Char)) :
    ∀ (stack : List (List Char)), (∀ s ∈ segs, PlainSeg s) →
      List.foldl (normStep false) stack segs = stack ++ segs := by
  induction segs with
  | nil =>
    intro stack _
    simp
  | cons seg rest ih =>
    intro stack hsegs
    rw [List.foldl_cons, normStep_push stack seg (hsegs seg (List.mem_cons_self _ _))]
    rw [ih _ (fun s hs => hsegs s (List.mem_cons_of_mem _ hs))]
    simp

theorem commonLen_spec : ∀ xs ys : List (List Char),
    commonLen xs ys ≤ xs.length ∧ commonLen xs ys ≤ ys.length ∧
      xs.take (commonLen xs ys) = ys.take (commonLen xs ys)
  | [], ys => by simp [commonLen]
  | x :: xs, [] => by simp [commonLen]
  | x :: xs, y :: ys => by
    rw [commonLen]
    by_cases h : x = y
    · obtain ⟨h1, h2, h3⟩ := commonLen_spec xs ys
      rw [if_pos h]
      refine ⟨by simpa using h1, by simpa using h2, ?_⟩
      simp [List.take_succ_cons, h, h3]
    · simp [if_neg h]


theorem resolveRightGo_abs (cwd : List Char) (h : isAbs cwd = true) :
    ∀ args, (resolveRightGo cwd args).1 = true := by
  intro args
  induction args with
  | nil => simpa [resolveRightGo] using h
  | cons p earlier ih =>
    rw [resolveRightGo]
    by_cases h1 : p = []
    · rw [if_pos h1]
      exact ih
    · rw [if_neg h1]
      by_cases h2 : isAbs p = true
      · rw [if_pos h2]
      · rw [if_neg h2]
        exact ih

theorem resolveRightGo_no_slash (cwd : List Char) :
    ∀ args, ∀ s ∈ (resolveRightGo cwd args).2, '/' ∉ s := by
  intro args
  induction args with
  | nil =>
    intro s hs
    exact splitSegsC_no_slash cwd s hs
  | cons p earlier ih =>
    intro s hs
    rw [resolveRightGo] at hs
    by_cases h1 : p = []
    · rw [if_pos h1] at hs
      exact ih s hs
    · rw [if_neg h1] at hs
      by_cases h2 : isAbs p = true
      · rw [if_pos h2] at hs
        exact splitSegsC_no_slash p s hs
      · rw [if_neg h2] at hs
        rcases List.mem_append.mp hs with h3 | h3
        · exact ih s h3
        · exact splitSegsC_no_slash p s h3

/-- Appending a non-empty relative argument appends its segments. -/
theorem resolveRight_pair (cwd a r : List Char) (h1 : r ≠ []) (h2 : isAbs r = false) :
    resolveRight cwd [a, r]
      = ((resolveRight cwd [a]).1, (resolveRight cwd [a]).2 ++ splitSegsC r) := by
  show resolveRightGo cwd [r, a] = _
  rw [resolveRightGo, if_neg h1, if_neg (by simp [h2])]
  rfl

theorem resolveRight_pair_empty (cwd a : List Char) :
    resolveRight cwd [a, []] = resolveRight cwd [a] := by
  show resolveRightGo cwd [[], a] = _
  rw [resolveRightGo, if_pos rfl]
  rfl

/-- With an absolute working directory every resolution is absolute, and the
result is the slash-joined normalized segment list. -/
theorem posixResolve_abs (cwd : String) (args : List String)
    (habs : isAbs cwd.data = true) :
    posixResolve cwd args
      = String.mk ('/' :: joinSegsC
          (normSegs false (resolveRight cwd.data (args.map String.data)).2)) := by
  unfold posixResolve
  dsimp only
  rw [show (resolveRight cwd.data (args.map String.data)).1 = true from
    resolveRightGo_abs cwd.data habs _]
  rfl

theorem joinSegsC_ne_nil (s : List Char) (rest : List (List Char)) (h : s ≠ []) :
    joinSegsC (s :: rest) ≠ [] := by
  cases rest with
  | nil => simpa [joinSegsC] using h
  | cons t r =>
    show s ++ '/' :: joinSegsC (t :: r) ≠ []
    cases s <;> simp

theorem isAbs_joinSegsC (s : List Char) (rest : List (List Char)) (h1 : s ≠ [])
    (h2 : '/' ∉ s) : isAbs (joinSegsC (s :: rest)) = false := by
  cases s with
  | nil => exact absurd rfl h1
  | cons c cs =>
    have hc : ¬ c = '/' := fun hh => h2 (hh ▸ List.mem_cons_self c cs)
    cases rest with
    | nil => simpa [joinSegsC, isAbs] using hc
    | cons t r => simpa [joinSegsC, isAbs] using hc

/-- The resolved string decomposes back into its normalized segments. -/
theorem resolvedSegs_posixResolve (cwd : String) (args : List String)
    (habs : isAbs cwd.data = true) :
    resolvedSegs (posixResolve cwd args)
      = normSegs false (resolveRight cwd.data (args.map String.data)).2 := by
  rw [posixResolve_abs cwd args habs]
  have hplain : ∀ s ∈ normSegs false (resolveRight cwd.data (args.map String.data)).2,
      PlainSeg s :=
    normSegs_plain _ (resolveRightGo_no_slash cwd.data _)
  unfold resolvedSegs
  cases hn : normSegs false (resolveRight cwd.data (args.map String.data)).2 with
  | nil => simp [joinSegsC]
  | cons s rest =>
    have hs := hplain s (hn ▸ List.mem_cons_self s rest)
    rw [show (String.mk ('/' :: joinSegsC (s :: rest))).data.drop 1
        = joinSegsC (s :: rest) from rfl]
    rw [if_neg (joinSegsC_ne_nil s rest hs.1)]
    refine splitSegsC_joinSegsC (s :: rest) (by simp) ?_
    intro x hx
    exact (hplain x (hn ▸ hx)).2.2.2


/-- **C7** (amended).  `resolvePath(a, relativePath(a, b))` — resolving the
relative path against the base it was computed from — equals
`resolvePath(b)`, for any absolute working directory.  (As claimed,
`resolvePath(relativePath(a, b))` resolves against the *working directory*,
not against `a`, and equals `b` only when `a` resolves to the working
directory; see `resolvePath_relativePath_needs_base`.) -/
theorem resolvePath_relativePath (cwd a b : String) (habs : isAbs cwd.data = true) :
    resolvePath cwd a (relativePath cwd a b) = resolvePath1 cwd b := by
  have hF := posixResolve_abs cwd [a] habs
  have hT := posixResolve_abs cwd [b] habs
  have hfs0 := resolvedSegs_posixResolve cwd [a] habs
  have hts0 := resolvedSegs_posixResolve cwd [b] habs
  simp only [List.map_cons, List.map_nil] at hF hT hfs0 hts0
  have hplainF : ∀ s ∈ resolvedSegs (posixResolve cwd [a]), PlainSeg s := by
    rw [hfs0]
    exact normSegs_plain _ (resolveRightGo_no_slash cwd.data _)
  have hplainT : ∀ s ∈ resolvedSegs (posixResolve cwd [b]), PlainSeg s := by
    rw [hts0]
    exact normSegs_plain _ (resolveRightGo_no_slash cwd.data _)
  have hFrep : posixResolve cwd [a]
      = String.mk ('/' :: joinSegsC (resolvedSegs (posixResolve cwd [a]))) := by
    rw [hfs0, hF]
  have hTrep : posixResolve cwd [b]
      = String.mk ('/' :: joinSegsC (resolvedSegs (posixResolve cwd [b]))) := by
    rw [hts0, hT]
  have hrel : relativePath cwd a b =
      (if posixResolve cwd [a] = posixResolve cwd [b] then "" else
        String.mk (joinSegsC
          (List.replicate ((resolvedSegs (posixResolve cwd [a])).length -
              commonLen (resolvedSegs (posixResolve cwd [a]))
                (resolvedSegs (posixResolve cwd [b])))
              ['.', '.']
            ++ (resolvedSegs (posixResolve cwd [b])).drop
              (commonLen (resolvedSegs (posixResolve cwd [a]))
                (resolvedSegs (posixResolve cwd [b])))))) := rfl
  by_cases heq : posixResolve cwd [a] = posixResolve cwd [b]
  · rw [show resolvePath cwd a (relativePath cwd a b)
        = posixResolve cwd [a, relativePath cwd a b] from rfl]
    rw [hrel, if_pos heq]
    show posixResolve cwd [a, ""] = resolvePath1 cwd b
    have h1 : posixResolve cwd [a, ""] = posixResolve cwd [a] := by
      unfold posixResolve
      rw [show (([a, ""] : List String).map String.data) = [a.data, []] from rfl,
          show (([a] : List String).map String.data) = [a.data] from rfl,
          resolveRight_pair_empty]
    rw [h1, heq]
    rfl
  · rw [show resolvePath cwd a (relativePath cwd a b)
        = posixResolve cwd [a, relativePath cwd a b] from rfl]
    rw [hrel, if_neg heq]
    obtain ⟨hc1, hc2, hc3⟩ :=
      commonLen_spec (resolvedSegs (posixResolve cwd [a]))
        (resolvedSegs (posixResolve cwd [b]))
    generalize hfsg : resolvedSegs (posixResolve cwd [a]) = fs at *
    generalize htsg : resolvedSegs (posixResolve cwd [b]) = ts at *
    generalize hcg : commonLen fs ts = c at *
    have hne : List.replicate (fs.length - c) ['.', '.'] ++ ts.drop c ≠ [] := by
      intro hnil
      rcases List.append_eq_nil.mp hnil with ⟨h4, h5⟩
      have hk0 : fs.length - c = 0 := by
        have := congrArg List.length h4
        simpa using this
      have hlt : ts.length ≤ c := by
        have := congrArg List.length h5
        simp [List.length_drop] at this
        omega
      have hfst : fs = ts := by
        have h7 : c = fs.length := by omega
        have h8 : c = ts.length := by omega
        calc fs = fs.take c := by rw [h7, List.take_length]
        _ = ts.take c := hc3
        _ = ts := by rw [h8, List.take_length]
      exact heq (by rw [hFrep, hTrep, hfst])
    obtain ⟨s0, rest0, hcons⟩ : ∃ s0 rest0,
        List.replicate (fs.length - c) ['.', '.'] ++ ts.drop c = s0 :: rest0 := by
      cases hx : List.replicate (fs.length - c) ['.', '.'] ++ ts.drop c with
      | nil => exact absurd hx hne
      | cons s0 r0 => exact ⟨s0, r0, rfl⟩
    have hmem0 : s0 ∈ List.replicate (fs.length - c) ['.', '.'] ++ ts.drop c := by
      rw [hcons]
      exact List.mem_cons_self _ _
    have hs0 : s0 ≠ [] ∧ '/' ∉ s0 := by
      rcases List.mem_append.mp hmem0 with h3 | h3
      · rw [List.eq_of_mem_replicate h3]
        exact ⟨by simp, by decide⟩
      · have hp := hplainT s0 (List.drop_subset c ts h3)
        exact ⟨hp.1, hp.2.2.2⟩
    have hnoslashR : ∀ s ∈ List.replicate (fs.length - c) ['.', '.'] ++ ts.drop c,
        '/' ∉ s := by
      intro s hsx
      rcases List.mem_append.mp hsx with h3 | h3
      · rw [List.eq_of_mem_replicate h3]
        decide
      · exact (hplainT s (List.drop_subset c ts h3)).2.2.2
    have hjoin_ne :
        joinSegsC (List.replicate (fs.length - c) ['.', '.'] ++ ts.drop c) ≠ [] := by
      rw [hcons]
      exact joinSegsC_ne_nil s0 rest0 hs0.1
    have hjoin_nabs :
        isAbs (joinSegsC (List.replicate (fs.length - c) ['.', '.'] ++ ts.drop c))
          = false := by
      rw [hcons]
      exact isAbs_joinSegsC s0 rest0 hs0.1 hs0.2
    have hsplit :
        splitSegsC (joinSegsC (List.replicate (fs.length - c) ['.', '.'] ++ ts.drop c))
          = List.replicate (fs.length - c) ['.', '.'] ++ ts.drop c :=
      splitSegsC_joinSegsC _ hne hnoslashR
    rw [posixResolve_abs cwd _ habs]
    rw [show (([a, String.mk (joinSegsC (List.replicate (fs.length - c) ['.', '.']
          ++ ts.drop c))] : List String).map String.data)
        = [a.data, joinSegsC (List.replicate (fs.length - c) ['.', '.'] ++ ts.drop c)]
      from rfl]
    rw [resolveRight_pair cwd.data a.data _ hjoin_ne hjoin_nabs]
    dsimp only
    rw [hsplit]
    have hnorm : normSegs false ((resolveRight cwd.data [a.data]).2
        ++ (List.replicate (fs.length - c) ['.', '.'] ++ ts.drop c)) = ts := by
      unfold normSegs
      rw [List.foldl_append, List.foldl_append]
      rw [show List.foldl (normStep false) [] (resolveRight cwd.data [a.data]).2
          = normSegs false (resolveRight cwd.data [a.data]).2 from rfl]
      rw [← hfs0]
      rw [foldl_normStep_dotdot (fs.length - c) fs hplainF]
      have htake : fs.length - (fs.length - c) = c := by omega
      rw [htake,
        foldl_normStep_push _ _ (fun s hsx => hplainT s (List.drop_subset c ts hsx)),
        hc3, List.take_append_drop]
    rw [hnorm, ← hTrep]
    rfl

/-- Witness for C7 (amended): with cwd `/c`, `relativePath("/x", "/x/y")` is
`y`, and resolving it against the base `/x` gives back `/x/y`. -/
theorem resolvePath_relativePath_witness :
    resolvePath "/c" "/x" (relativePath "/c" "/x" "/x/y") = resolvePath1 "/c" "/x/y" :=
  resolvePath_relativePath "/c" "/x" "/x/y" rfl

/-- **C7** counterexample.  `resolvePath(relativePath(a, b))` resolves the
relative result against the working directory, not against `a`: with cwd
`/c`, `a = /x`, `b = /x/y`, the relative path is `y` and the one-argument
`resolvePath` yields `/c/y`, not `b = /x/y` (both strings already use `/`
separators, so separator normalization changes neither). -/
theorem resolvePath_relativePath_needs_base :
    resolvePath1 "/c" (relativePath "/c" "/x" "/x/y") = "/c/y" ∧
    ("/c/y" : String) ≠ "/x/y" := by
  constructor
  · rfl
  · decide

/-- Soundness of the star matcher: a success splits the input into a
star-matched prefix and a suffix accepted by the continuation. -/
theorem rxStar_sound (p : Char → Bool) (k : List Char → Option (List Char)) :
    ∀ (s out : List Char), rxStar p k s = some out →
      ∃ s1 s2, s = s1 ++ s2 ∧ RxMatches (.starC p) s1 ∧ k s2 = some out
  | [], out, h => ⟨[], [], rfl, RxMatches.starNil, h⟩
  | c :: rest, out, h => by
    rw [rxStar] at h
    split at h
    · rename_i hp
      cases hx : rxStar p k rest with
      | some out2 =>
        rw [hx] at h
        obtain ⟨s1, s2, hsplit, hm, hk⟩ := rxStar_sound p k rest out2 hx
        cases h
        exact ⟨c :: s1, s2, by rw [hsplit]; rfl, RxMatches.starCons hp hm, hk⟩
      | none =>
        rw [hx] at h
        exact ⟨[], c :: rest, rfl, RxMatches.starNil, h⟩
    · exact ⟨[], c :: rest, rfl, RxMatches.starNil, h⟩

/-- Soundness of the backtracking matcher: a success splits the input into a
matched prefix in the language of the pattern and a suffix accepted by the
continuation. -/
theorem rxRun_sound :
    ∀ (r : Rx) (s : List Char) (k : List Char → Option (List Char))
      (out : List Char), rxRun r s k = some out →
      ∃ s1 s2, s = s1 ++ s2 ∧ RxMatches r s1 ∧ k s2 = some out
  | .eps, s, k, out, h => ⟨[], s, rfl, RxMatches.eps, h⟩
  | .chr p, s, k, out, h => by
    match s with
    | [] => exact absurd h (by simp [rxRun])
    | c :: rest =>
      rw [rxRun] at h
      split at h
      · rename_i hp
        exact ⟨[c], rest, rfl, RxMatches.chr hp, h⟩
      · exact absurd h (by simp)
  | .cat r1 r2, s, k, out, h => by
    rw [rxRun] at h
    obtain ⟨s1, s2, hsplit, hm1, hk1⟩ := rxRun_sound r1 s _ out h
    obtain ⟨s3, s4, hsplit2, hm2, hk2⟩ := rxRun_sound r2 s2 k out hk1
    exact ⟨s1 ++ s3, s4, by rw [hsplit, hsplit2, List.append_assoc],
      RxMatches.cat hm1 hm2, hk2⟩
  | .alt r1 r2, s, k, out, h => by
    rw [rxRun] at h
    cases hx : rxRun r1 s k with
    | some out2 =>
      rw [hx] at h
      cases h
      obtain ⟨s1, s2, hsplit, hm, hk⟩ := rxRun_sound r1 s k out hx
      exact ⟨s1, s2, hsplit, RxMatches.altL hm, hk⟩
    | none =>
      rw [hx] at h
      obtain ⟨s1, s2, hsplit, hm, hk⟩ := rxRun_sound r2 s k out h
      exact ⟨s1, s2, hsplit, RxMatches.altR hm, hk⟩
  | .opt r, s, k, out, h => by
    rw [rxRun] at h
    cases hx : rxRun r s k with
    | some out2 =>
      rw [hx] at h
      cases h
      obtain ⟨s1, s2, hsplit, hm, hk⟩ := rxRun_sound r s k out hx
      exact ⟨s1, s2, hsplit, RxMatches.optSome hm, hk⟩
    | none =>
      rw [hx] at h
      exact ⟨[], s, rfl, RxMatches.optNone, h⟩
  | .starC p, s, k, out, h => rxStar_sound p k s out (h : rxStar p k s = some out)

/-- The star matcher succeeds whenever its continuation succeeds on the whole
input (matching zero characters is always allowed). -/
theorem rxStar_isSome_of_k (p : Char → Bool)
    (k : List Char → Option (List Char)) :
    ∀ s : List Char, (k s).isSome = true → (rxStar p k s).isSome = true
  | [], h => h
  | c :: rest, h => by
    rw [rxStar]
    split
    · cases hx : rxStar p k rest with
      | some out => simp
      | none => simpa using h
    · exact h

/-- Completeness of the backtracking matcher: whenever some prefix of the
input is in the pattern's language and the continuation accepts the
corresponding suffix, the matcher finds some success. -/
theorem rxRun_complete {r : Rx} {s1 : List Char} (hm : RxMatches r s1) :
    ∀ (s2 : List Char) (k : List Char → Option (List Char)),
      (k s2).isSome = true → (rxRun r (s1 ++ s2) k).isSome = true := by
  induction hm with
  | eps =>
    intro s2 k hk
    simpa [rxRun] using hk
  | chr hp =>
    intro s2 k hk
    simpa [rxRun, hp] using hk
  | cat hm1 hm2 ih1 ih2 =>
    intro s2 k hk
    rename_i r1 r2 sa sb
    rw [rxRun, List.append_assoc]
    exact ih1 (sb ++ s2) _ (ih2 s2 k hk)
  | altL hm ih =>
    intro s2 k hk
    rename_i r1 r2 sa
    rw [rxRun]
    cases hx : rxRun r1 (sa ++ s2) k with
    | some out => simp
    | none =>
      have := ih s2 k hk
      rw [hx] at this
      exact absurd this (by simp)
  | altR hm ih =>
    intro s2 k hk
    rename_i r1 r2 sa
    rw [rxRun]
    cases hx : rxRun r1 (sa ++ s2) k with
    | some out => simp
    | none => exact ih s2 k hk
  | optSome hm ih =>
    intro s2 k hk
    rename_i r sa
    rw [rxRun]
    cases hx : rxRun r (sa ++ s2) k with
    | some out => simp
    | none =>
      have := ih s2 k hk
      rw [hx] at this
      exact absurd this (by simp)
  | optNone =>
    intro s2 k hk
    rename_i r
    rw [List.nil_append, rxRun]
    cases hx : rxRun r s2 k with
    | some out => simp
    | none => exact hk
  | starNil =>
    intro s2 k hk
    rename_i p
    rw [List.nil_append]
    exact rxStar_isSome_of_k p k s2 hk
  | starCons hp hm ih =>
    intro s2 k hk
    rename_i p c sa
    show (rxStar p k (c :: (sa ++ s2))).isSome = true
    rw [rxStar, if_pos hp]
    cases hx : rxStar p k (sa ++ s2) with
    | some out => simp
    | none =>
      have h2 : (rxStar p k (sa ++ s2)).isSome = true := ih s2 k hk
      rw [hx] at h2
      exact absurd h2 (by simp)

/-- Soundness of the leftmost-match scan: a hit decomposes the input into the
text before the match, a word of the pattern's language, and the text after
it. -/
theorem rxFindFirst_sound (r : Rx) :
    ∀ (s pre rest : List Char), rxFindFirst r s = some (pre, rest) →
      ∃ m, s = pre ++ m ++ rest ∧ RxMatches r m
  | [], pre, rest, h => by
    rw [rxFindFirst] at h
    cases hx : rxMatchAt r [] with
    | some rest2 =>
      rw [hx] at h
      simp only [Option.some.injEq, Prod.mk.injEq] at h
      obtain ⟨h3, h4⟩ := h
      subst h3
      subst h4
      obtain ⟨s1, s2, hsplit, hm, hk⟩ := rxRun_sound r [] some rest2 hx
      simp only [Option.some.injEq] at hk
      subst hk
      obtain ⟨h1, h2⟩ := List.append_eq_nil.mp hsplit.symm
      subst h1
      subst h2
      exact ⟨[], rfl, hm⟩
    | none =>
      rw [hx] at h
      exact absurd h (by simp)
  | c :: t, pre, rest, h => by
    rw [rxFindFirst] at h
    cases hx : rxMatchAt r (c :: t) with
    | some rest2 =>
      rw [hx] at h
      simp only [Option.some.injEq, Prod.mk.injEq] at h
      obtain ⟨h3, h4⟩ := h
      subst h3
      subst h4
      obtain ⟨s1, s2, hsplit, hm, hk⟩ := rxRun_sound r (c :: t) some rest2 hx
      simp only [Option.some.injEq] at hk
      subst hk
      exact ⟨s1, by rw [hsplit]; rfl, hm⟩
    | none =>
      rw [hx] at h
      cases hy : rxFindFirst r t with
      | some pr =>
        rw [hy] at h
        simp only [Option.some.injEq, Prod.mk.injEq] at h
        obtain ⟨h3, h4⟩ := h
        subst h3
        subst h4
        obtain ⟨m, hsplit, hm⟩ := rxFindFirst_sound r t pr.1 pr.2 (by rw [hy])
        exact ⟨m, by rw [hsplit]; rfl, hm⟩
      | none =>
        rw [hy] at h
        exact absurd h (by simp)

/-- Completeness of the leftmost-match scan: if any decomposition of the
input exhibits a word of the pattern's language, the scan reports a hit. -/
theorem rxFindFirst_complete (r : Rx) :
    ∀ (pre s m post : List Char), s = pre ++ m ++ post → RxMatches r m →
      rxFindFirst r s ≠ none
  | [], s, m, post, hdec, hm => by
    have hsome : (rxMatchAt r s).isSome = true := by
      rw [hdec, List.nil_append]
      exact rxRun_complete hm post some rfl
    cases s with
    | nil =>
      rw [rxFindFirst]
      cases hx : rxMatchAt r [] with
      | some rest => simp
      | none =>
        rw [hx] at hsome
        exact absurd hsome (by simp)
    | cons c t =>
      rw [rxFindFirst]
      cases hx : rxMatchAt r (c :: t) with
      | some rest => simp
      | none =>
        rw [hx] at hsome
        exact absurd hsome (by simp)
  | c :: pre, s, m, post, hdec, hm => by
    rw [hdec, List.cons_append, List.cons_append, rxFindFirst]
    cases hx : rxMatchAt r (c :: (pre ++ m ++ post)) with
    | some rest => simp
    | none =>
      cases hy : rxFindFirst r (pre ++ m ++ post) with
      | some pr => simp
      | none =>
        exact absurd hy (rxFindFirst_complete r pre (pre ++ m ++ post) m post rfl hm)

/-- **C10**.  `emitSourceMapUrl(content, null)` never appends anything: the
result is never longer than the input.  When no substring of the content
matches the sourceMappingURL-comment pattern (either comment form, trailing
whitespace included), the content is returned unchanged; otherwise the result
is the content with one pattern match — a sourceMappingURL comment together
with its trailing whitespace — cut out. -/
theorem emitSourceMapUrl_null_spec (content : List Char) :
    (emitSourceMapUrlNull content).length ≤ content.length ∧
    ((emitSourceMapUrlNull content = content ∧
        ¬ ∃ pre m post, content = pre ++ m ++ post ∧
          RxMatches sourceMapUrlRx m) ∨
      ∃ pre m post, content = pre ++ m ++ post ∧
        RxMatches sourceMapUrlRx m ∧
        emitSourceMapUrlNull content = pre ++ post) := by
  unfold emitSourceMapUrlNull
  cases hf : rxFindFirst sourceMapUrlRx content with
  | none =>
    refine ⟨le_refl _, Or.inl ⟨rfl, ?_⟩⟩
    rintro ⟨pre, m, post, hdec, hm⟩
    exact rxFindFirst_complete sourceMapUrlRx pre content m post hdec hm hf
  | some pr =>
    obtain ⟨m, hdec, hm⟩ :=
      rxFindFirst_sound sourceMapUrlRx content pr.1 pr.2 (by rw [hf])
    refine ⟨?_, Or.inr ⟨pr.1, m, pr.2, hdec, hm, rfl⟩⟩
    rw [hdec]
    simp [List.length_append]

/-- Sanity check of the embedding on a concrete input: a single-line
sourceMappingURL comment and the newline after it are removed, the rest of
the content is untouched. -/
theorem emitSourceMapUrlNull_example :
    emitSourceMapUrlNull "var a;\n//# sourceMappingURL=a.js.map\n".data
      = "var a;\n".data := rfl

/-- Sanity check of the embedding on a concrete input without any
sourceMappingURL comment: the content is unchanged. -/
theorem emitSourceMapUrlNull_example_unchanged :
    emitSourceMapUrlNull "var a; // no map here\n".data
      = "var a; // no map here\n".data := rfl

end Digo
